import Mathlib

/-!
Shallow embedding of the Hindi BPE tokenizer
(`src/HindiBPE_Tokenizer_App/src/hindi_bpe_scratch.py`, called the App
variant below, and `src/src/hindi_bpe_scratch.py`, called the Src2
variant).  Text is modelled as a list of Unicode codepoints (`Tok`);
Python dicts are modelled as insertion-ordered association lists.  The
external library call `unicodedata.normalize('NFKC', ·)` is kept as an
explicit function parameter `nfkc`; theorems that depend on its behaviour
state their assumptions about it as hypotheses.
-/

set_option maxRecDepth 200000

namespace HindiBPE

/-- Codepoint string: a Python `str` as its list of Unicode codepoints. -/
abbrev Tok := List Nat

/-- Convert a Lean string literal to its codepoint list. -/
def s2t (s : String) : Tok := s.data.map Char.toNat

/-- Python whitespace as matched by `str.strip`, `str.split` and `re \s`. -/
def isSpaceCp (c : Nat) : Bool :=
  c = 0x20 || c = 0x9 || c = 0xA || c = 0xB || c = 0xC || c = 0xD ||
  c = 0x1C || c = 0x1D || c = 0x1E || c = 0x1F || c = 0x85 || c = 0xA0 ||
  c = 0x1680 || (0x2000 ≤ c && c ≤ 0x200A) || c = 0x2028 || c = 0x2029 ||
  c = 0x202F || c = 0x205F || c = 0x3000

/-- Vocabulary: insertion-ordered token → id map (`self.vocab`). -/
abbrev Vocab := List (Tok × Nat)

/-- Python `token in self.vocab`. -/
def vcontains (v : Vocab) (t : Tok) : Bool := v.any (fun p => p.1 = t)

/-- Python `self.vocab.get(token)` / `self.vocab[token]` (first binding:
the dicts never hold duplicate keys). -/
def vlookup (v : Vocab) (t : Tok) : Option Nat :=
  match v with
  | [] => none
  | (k, i) :: rest => if k = t then some i else vlookup rest t

/-- Guarded insertion `if token not in vocab: vocab[token] = len(vocab)`;
in `__init__` the running `current_id` always equals `len(self.vocab)`
(it is incremented exactly once per insertion starting from 0), so all
seeding phases and all training insertions are instances of this. -/
def addToken (v : Vocab) (t : Tok) : Vocab :=
  if vcontains v t then v else v ++ [(t, v.length)]

/-- Unguarded Python dict assignment `d[k] = val` (update in place if the
key is present, else append). -/
def dset (v : Vocab) (t : Tok) (val : Nat) : Vocab :=
  match v with
  | [] => [(t, val)]
  | (k, i) :: rest => if k = t then (t, val) :: rest else (k, i) :: dset rest t val

/-! Constant tables of the App variant (`__init__`, lines 27-122).  Python
set literals are modelled as lists in source order; every use below is
either a membership test (order-irrelevant) or a guarded insertion whose
result does not depend on duplicates. -/

/-- Special tokens `["[UNK]", "[PAD]", "[BOS]", "[EOS]"]`. -/
def specialToksApp : List Tok := [s2t "[UNK]", s2t "[PAD]", s2t "[BOS]", s2t "[EOS]"]

/-- Hindi punctuation added in `__init__`: `["।", "?", "!", ","]`. -/
def hindiPuncts : List Tok := [[0x964], [0x3F], [0x21], [0x2C]]

/-- App `self.common_words` (50 literals, incl. the duplicated "गये";
harmless: membership tests and guarded insertion ignore duplicates). -/
def commonWordsApp : List Tok :=
  [s2t "में", s2t "का", s2t "की", s2t "के", s2t "है", s2t "से", s2t "को",
   s2t "और", s2t "ने", s2t "पर", s2t "कर", s2t "था", s2t "थी", s2t "थे",
   s2t "हैं", s2t "गया", s2t "गयी", s2t "गये", s2t "रहा", s2t "रही",
   s2t "एक", s2t "यह", s2t "वह", s2t "कि", s2t "जो", s2t "तो", s2t "भी",
   s2t "हो", s2t "कुछ", s2t "अब", s2t "लिए", s2t "साथ", s2t "बाद",
   s2t "लिया", s2t "गये", s2t "दिया", s2t "करने", s2t "किया", s2t "होता",
   s2t "करते", s2t "बात", s2t "लोग", s2t "काम", s2t "देश", s2t "समय",
   s2t "दिन", s2t "कहा", s2t "होने", s2t "बार", s2t "जाता"]

/-- Devanagari letters of `self.base_chars` without the punctuation part:
the 11 vowels and 33 consonants of the source string plus the nukta ़
(U+093C). -/
def baseLetters : List Nat :=
  [0x905, 0x906, 0x907, 0x908, 0x909, 0x90A, 0x90B, 0x90F, 0x910, 0x913,
   0x914, 0x915, 0x916, 0x917, 0x918, 0x919, 0x91A, 0x91B, 0x91C, 0x91D,
   0x91E, 0x91F, 0x920, 0x921, 0x922, 0x923, 0x924, 0x925, 0x926, 0x927,
   0x928, 0x92A, 0x92B, 0x92C, 0x92D, 0x92E, 0x92F, 0x930, 0x932, 0x935,
   0x936, 0x937, 0x938, 0x939, 0x93C]

/-- App `self.base_chars` = letters ∪ nukta ∪ `"।?!,"`. -/
def baseCharsApp : List Nat := baseLetters ++ [0x964, 0x3F, 0x21, 0x2C]

/-- App `self.matra_chars = set("ािीुूृेैोौंःँ्")` — note that it
contains the virama/joiner U+094D as its last element. -/
def matraCharsApp : List Nat :=
  [0x93E, 0x93F, 0x940, 0x941, 0x942, 0x943, 0x947, 0x948, 0x94B, 0x94C,
   0x902, 0x903, 0x901, 0x94D]

/-- App verbal-inflection suffix literals of `_get_stats` (line 239). -/
def verbalSuffixes : List Tok :=
  [s2t "ना", s2t "ता", s2t "ते", s2t "ती", s2t "गा", s2t "गी", s2t "या",
   s2t "ये", s2t "कर"]

/-- App `self.common_suffixes` (lines 63-64). -/
def commonSuffixes : List Tok :=
  [s2t "ों", s2t "ाएं", s2t "ाओं", s2t "ाता", s2t "ाती", s2t "ाते",
   s2t "ाना", s2t "ाने", s2t "ेगा", s2t "ेगी", s2t "कर", s2t "िया",
   s2t "ियों", s2t "वाला", s2t "वाले", s2t "वाली", s2t "कार", s2t "ता",
   s2t "त्व", s2t "मान"]

/-- App `self.common_prefixes` (lines 65-66). -/
def commonPrefixList : List Tok :=
  [s2t "अन", s2t "अध", s2t "उप", s2t "प्र", s2t "सम", s2t "अभि",
   s2t "परि", s2t "विश", s2t "सर्व", s2t "महा", s2t "अति", s2t "सु",
   s2t "कु", s2t "नि", s2t "दुर्", s2t "स्व", s2t "अनु"]

/-- Character substitution table `self.char_mappings`, in source order.
The nukta keys are the decomposed two-codepoint sequences (base + U+093C)
as they appear byte-for-byte in the source file; the zero-width and
no-break keys are single codepoints. -/
def charMappings : List (Tok × Tok) :=
  [([0x90D], [0x90F]),
   ([0x972], [0x905]),
   ([0x950], [0x913, 0x92E, 0x94D]),
   ([0x915, 0x93C], [0x915]),
   ([0x916, 0x93C], [0x916]),
   ([0x917, 0x93C], [0x917]),
   ([0x91C, 0x93C], [0x91C]),
   ([0x921, 0x93C], [0x921]),
   ([0x922, 0x93C], [0x922]),
   ([0x92B, 0x93C], [0x92B]),
   ([0x915, 0x94D, 0x937], [0x915, 0x94D, 0x937]),
   ([0x924, 0x94D, 0x930], [0x924, 0x94D, 0x930]),
   ([0x91C, 0x94D, 0x91E], [0x91C, 0x94D, 0x91E]),
   ([0x936, 0x94D, 0x930], [0x936, 0x94D, 0x930]),
   ([0x200B], [0x20]),
   ([0x200C], []),
   ([0x200D], []),
   ([0xA0], [0x20])]

/-- Matra codepoints used to build the syllable set (`"ािीुूृेैोौं"`,
line 112: the ten vowel signs plus anusvara). -/
def syllableMatras : List Nat :=
  [0x93E, 0x93F, 0x940, 0x941, 0x942, 0x943, 0x947, 0x948, 0x94B, 0x94C,
   0x902]

/-- App `self.syllables`: for every base char except punctuation, the char
itself, char+matra, and char+virama+char conjuncts (a Python set; we keep
the generated list — membership is all the code ever asks of it). -/
def syllablesList : List Tok :=
  baseLetters.flatMap (fun c =>
    [c] :: syllableMatras.map (fun m => [c, m]) ++
      baseLetters.map (fun h => [c, 0x94D, h]))

/-! Normalizer (`_normalize_text`, App lines 196-215, Src2 lines 122-142).
The regex substitutions collapse maximal runs of a character class; they
are all instances of `runMap`, which rewrites each maximal run of
`p`-characters of length `n` to `g n`. -/

/-- Drop the longest `p`-prefix of a string. -/
def dropLeading (p : Nat → Bool) (s : Tok) : Tok := s.dropWhile p

/-- Drop the longest `p`-suffix of a string. -/
def dropTrailing (p : Nat → Bool) : Tok → Tok
  | [] => []
  | c :: r =>
    match dropTrailing p r with
    | [] => if p c then [] else [c]
    | r' => c :: r'

/-- Python `str.strip()`. -/
def pstrip (s : Tok) : Tok := dropLeading isSpaceCp (dropTrailing isSpaceCp s)

/-- Fuel-structured worker for `runMap` (the fuel bounds the input length;
structural recursion keeps the function kernel-reducible). -/
def runMapF (p : Nat → Bool) (g : Nat → Tok) : Nat → Tok → Tok
  | _, [] => []
  | 0, s => s
  | fuel + 1, c :: rest =>
    if p c then
      g (1 + (rest.takeWhile p).length) ++ runMapF p g fuel (dropLeading p rest)
    else
      c :: runMapF p g fuel rest

/-- Rewrite every maximal run of `p`-characters of length `n` to `g n`. -/
def runMap (p : Nat → Bool) (g : Nat → Tok) (s : Tok) : Tok :=
  runMapF p g s.length s

/-- Character class `[-_]`. -/
def isDashCp (c : Nat) : Bool := c = 0x2D || c = 0x5F

/-- Character class `[?!।॥]` of the Src2 variant. -/
def isPunctCp (c : Nat) : Bool := c = 0x3F || c = 0x21 || c = 0x964 || c = 0x965

/-- Dot character class for `\.{2,}`. -/
def isDotCp (c : Nat) : Bool := c = 0x2E

/-- Substitution `re.sub(r'\s+', ' ', ·)`. -/
def wsCollapse (s : Tok) : Tok := runMap isSpaceCp (fun _ => [0x20]) s

/-- Substitution `re.sub(r'[-_]+', '-', ·)`. -/
def dashCollapse (s : Tok) : Tok := runMap isDashCp (fun _ => [0x2D]) s

/-- Substitution `re.sub(r'[?!।॥]+', '।', ·)` (Src2 only). -/
def punctCollapse (s : Tok) : Tok := runMap isPunctCp (fun _ => [0x964]) s

/-- Substitution `re.sub(r'\.{2,}', '...', ·)`: runs of two or more dots
become exactly three, a single dot stays. -/
def dotsCollapse (s : Tok) : Tok :=
  runMap isDotCp (fun n => if 2 ≤ n then [0x2E, 0x2E, 0x2E] else [0x2E]) s

/-- Substitution for the one-character class of quote variants
(straight double quote and apostrophe): each is replaced by `"`. -/
def quoteMap (s : Tok) : Tok :=
  s.map (fun c => if c = 0x22 || c = 0x27 then 0x22 else c)

/-- Fuel-structured worker for `replaceAll`. -/
def replaceAllF (k : Nat) (ks val : Tok) : Nat → Tok → Tok
  | _, [] => []
  | 0, s => s
  | fuel + 1, c :: rest =>
    if c = k && ks.isPrefixOf rest then
      val ++ replaceAllF k ks val fuel (rest.drop ks.length)
    else
      c :: replaceAllF k ks val fuel rest

/-- Python `str.replace(key, val)` with nonempty `key = k :: ks`:
leftmost, non-overlapping. -/
def replaceAll (k : Nat) (ks val : Tok) (s : Tok) : Tok :=
  replaceAllF k ks val s.length s

/-- One pass of the `char_mappings` loop body `text.replace(old, new)`. -/
def applyMap (s : Tok) (kv : Tok × Tok) : Tok :=
  match kv.1 with
  | [] => s
  | k :: ks => replaceAll k ks kv.2 s

/-- The `for old, new in self.char_mappings.items()` replacement loop. -/
def replMappings (s : Tok) : Tok := charMappings.foldl applyMap s

/-- App `_normalize_text`: strip, NFKC (kept as the parameter `nfkc`),
substitution table, whitespace collapse, strip, `[-_]+`→`-`, quote
variants→`"`, `\.{2,}`→`...`. -/
def normalizeApp (nfkc : Tok → Tok) (s : Tok) : Tok :=
  dotsCollapse (quoteMap (dashCollapse (pstrip (wsCollapse
    (replMappings (nfkc (pstrip s)))))))

/-- Src2 `_normalize_text`: same as the App variant with the extra
`[?!।॥]+`→`।` collapse between the whitespace and dash steps. -/
def normalizeSrc2 (nfkc : Tok → Tok) (s : Tok) : Tok :=
  dotsCollapse (quoteMap (dashCollapse (punctCollapse (pstrip (wsCollapse
    (replMappings (nfkc (pstrip s))))))))

/-- Fuel-structured worker for `splitWs`. -/
def splitWsF : Nat → Tok → List Tok
  | _, [] => []
  | 0, _ => []
  | fuel + 1, c :: rest =>
    if isSpaceCp c then splitWsF fuel rest
    else
      (c :: rest.takeWhile (fun x => ! isSpaceCp x)) ::
        splitWsF fuel (rest.dropWhile (fun x => ! isSpaceCp x))

/-- Python `str.split()`: split on whitespace runs, no empty pieces. -/
def splitWs (s : Tok) : List Tok := splitWsF s.length s

/-- Python `' '.join(parts)`. -/
def joinSpace : List Tok → Tok
  | [] => []
  | [w] => w
  | w :: rest => w ++ 0x20 :: joinSpace rest

/-! Script segmenter (`_tokenize_word`, App lines 124-194). -/

/-- Python `p in charset` for a set of single characters: true exactly
when `p` is a one-character string whose character is in the set. -/
def inCharSet (cs : List Nat) (p : Tok) : Bool :=
  match p with
  | [x] => cs.contains x
  | _ => false

/-- Check `all(p in base_chars or p in matra_chars for p in
subword.split('्'))` (line 154). -/
def validConj (sub : Tok) : Bool :=
  (sub.splitOn 0x94D).all
    (fun p => inCharSet baseCharsApp p || inCharSet matraCharsApp p)

/-- Condition under which the length-`n` candidate at the current position
is emitted: a vocabulary entry, common word or syllable (line 143), or a
conjunct-looking subword (line 152). -/
def tokMatch (vocab : Vocab) (sub : Tok) : Bool :=
  vcontains vocab sub || commonWordsApp.contains sub ||
  syllablesList.contains sub ||
  (3 ≤ sub.length && sub.contains 0x94D && validConj sub)

/-- The `for length in range(max_length, 0, -1)` search: the longest
`n ≤ maxLen` with `tokMatch` on the length-`n` prefix. -/
def findMatchLen (vocab : Vocab) (w : Tok) : Nat → Option Nat
  | 0 => none
  | n + 1 =>
    if tokMatch vocab (w.take (n + 1)) then some (n + 1)
    else findMatchLen vocab w n

/-- Collect `halant + consonant` repetitions (lines 167-171): the Python
loop takes a virama followed by a base char as long as at least two
characters remain. -/
def collectHal : Tok → Tok × Tok
  | 0x94D :: b :: rest2 =>
    if baseCharsApp.contains b then
      let pr := collectHal rest2
      (0x94D :: b :: pr.1, pr.2)
    else ([], 0x94D :: b :: rest2)
  | u => ([], u)

/-- One iteration of the `while i < len(word)` loop at a position with
first remaining char `c` and tail `rest`: returns the emitted token and
the remaining input. -/
def stepTok (vocab : Vocab) (c : Nat) (rest : Tok) : Tok × Tok :=
  match findMatchLen vocab (c :: rest) (min 12 (rest.length + 1)) with
  | some n => ((c :: rest).take n, (c :: rest).drop n)
  | none =>
    if rest.isEmpty then ([c], [])
    else
      let hr := collectHal rest
      let mats := hr.2.takeWhile (fun x => matraCharsApp.contains x)
      let cluster := c :: (hr.1 ++ mats)
      if vcontains vocab cluster || syllablesList.contains cluster then
        (cluster, hr.2.dropWhile (fun x => matraCharsApp.contains x))
      else
        (c :: rest.takeWhile (fun x => matraCharsApp.contains x),
         rest.dropWhile (fun x => matraCharsApp.contains x))

/-- Fuel-structured worker for `tokenizeCore`. -/
def tokenizeCoreF (vocab : Vocab) : Nat → Tok → List Tok
  | _, [] => []
  | 0, _ => []
  | fuel + 1, c :: rest =>
    (stepTok vocab c rest).1 :: tokenizeCoreF vocab fuel (stepTok vocab c rest).2

/-- Main loop of `_tokenize_word` on an already-normalized word. -/
def tokenizeCore (vocab : Vocab) (s : Tok) : List Tok :=
  tokenizeCoreF vocab s.length s

/-- App `_tokenize_word`: normalize, return the whole word when it is a
vocabulary entry, otherwise run the position loop. -/
def tokenizeWordApp (vocab : Vocab) (nfkc : Tok → Tok) (w : Tok) : List Tok :=
  let word := normalizeApp nfkc w
  if vcontains vocab word then [word] else tokenizeCore vocab word

/-! Tokenizer state and construction (App `__init__`). -/

/-- Mutable attributes of a `HindiBPE` instance (the heuristic tables are
constants and stay global definitions). -/
structure TokSt where
  vocab : Vocab
  merges : List ((Tok × Tok) × Nat)
  specialToks : List Tok
  vocabSize : Nat
  minFreq : Nat

/-- Generic Python dict `d.get(k, 0)` for Nat-valued dicts. -/
def dget {K : Type} [DecidableEq K] (d : List (K × Nat)) (k : K) : Nat :=
  match d with
  | [] => 0
  | (k', v) :: rest => if k' = k then v else dget rest k

/-- Generic Python dict assignment `d[k] = v`. -/
def dsetG {K : Type} [DecidableEq K] (d : List (K × Nat)) (k : K) (v : Nat) :
    List (K × Nat) :=
  match d with
  | [] => [(k, v)]
  | (k', v') :: rest => if k' = k then (k, v) :: rest else (k', v') :: dsetG rest k v

/-- App seed vocabulary: 256 one-codepoint ASCII entries with id = code,
then (each with the next free id, skipping present keys) special tokens,
Hindi punctuation, common words, base characters (the `char.strip()`
guard models as a non-whitespace filter), and the syllable set.  Python
iterates its sets in an unspecified order; we use source-literal order —
every claim below is insensitive to it. -/
def initVocabApp : Vocab :=
  (specialToksApp ++ hindiPuncts ++ commonWordsApp ++
    ((baseCharsApp.filter (fun c => ! isSpaceCp c)).map (fun c => [c])) ++
    syllablesList).foldl addToken ((List.range 256).map (fun i => ([i], i)))

/-- App `HindiBPE(vocab_size, min_freq)`. -/
def initStateApp (vocabSize minFreq : Nat) : TokSt :=
  ⟨initVocabApp, [], specialToksApp, vocabSize, minFreq⟩

/-! Codec (`encode` lines 371-390, `decode` lines 392-413).  `encode` can
only fail at the dictionary subscript `self.vocab['[UNK]']`; the `Option`
is `none` exactly when Python would raise `KeyError`. -/

/-- Encode a single subword: its id, else the id bound to `"[UNK]"`
(`none` models the `KeyError` when `"[UNK]"` itself is unbound). -/
def encodeTok (vocab : Vocab) (t : Tok) : Option Nat :=
  match vlookup vocab t with
  | some i => some i
  | none => vlookup vocab (s2t "[UNK]")

/-- Encode the subword list of one word. -/
def encodeToks (vocab : Vocab) : List Tok → Option (List Nat)
  | [] => some []
  | t :: rest =>
    match encodeTok vocab t, encodeToks vocab rest with
    | some i, some is => some (i :: is)
    | _, _ => none

/-- Per-word branch of `encode`: the whole word's id when present,
otherwise encode its `_tokenize_word` segmentation. -/
def encodeWordApp (vocab : Vocab) (nfkc : Tok → Tok) (w : Tok) : Option (List Nat) :=
  match vlookup vocab w with
  | some i => some [i]
  | none => encodeToks vocab (tokenizeWordApp vocab nfkc w)

/-- Word loop of `encode` (ids accumulate in order; a raise anywhere
aborts the call, so the post-raise state is irrelevant). -/
def encodeWords (vocab : Vocab) (nfkc : Tok → Tok) : List Tok → Option (List Nat)
  | [] => some []
  | w :: rest =>
    match encodeWordApp vocab nfkc w, encodeWords vocab nfkc rest with
    | some is, some js => some (is ++ js)
    | _, _ => none

/-- App `encode`. -/
def encodeApp (nfkc : Tok → Tok) (st : TokSt) (text : Tok) : Option (List Nat) :=
  encodeWords st.vocab nfkc (splitWs (normalizeApp nfkc text))

/-- Reverse lookup through `id_to_token = {v: k for k, v in vocab.items()}`:
the comprehension lets later bindings overwrite earlier ones, so the last
entry with the given id wins.  Ids are integers (`decode` accepts any). -/
def rlookupLast (v : Vocab) (i : Int) : Option Tok :=
  match v with
  | [] => none
  | (k, n) :: rest =>
    match rlookupLast rest i with
    | some t => some t
    | none => if (n : Int) = i then some k else none

/-- String literal `"ािीुूृेैोौंँःृ्"` used by `decode`'s spacing tests
(`token in "..."` is a Python substring test; the literal repeats ृ). -/
def decodeMatraStr : Tok :=
  [0x93E, 0x93F, 0x940, 0x941, 0x942, 0x943, 0x947, 0x948, 0x94B, 0x94C,
   0x902, 0x901, 0x903, 0x943, 0x94D]

/-- The four punctuation strings of `decode`'s first test. -/
def isDecPunct (c : Nat) : Bool := c = 0x964 || c = 0x3F || c = 0x21 || c = 0x2C

/-- Python substring test `t in s` for strings. -/
def isSubstrOf (t s : Tok) : Bool :=
  match s with
  | [] => t.isEmpty
  | _ :: rest => t.isPrefixOf s || isSubstrOf t rest

/-- Loop body of `decode`: append the token, preceded by a space when the
result is nonempty and the token is an ordinary word token. -/
def decodeStep (specials : List Tok) (acc : List Tok) (token : Tok) : List Tok :=
  if hindiPuncts.contains token || isSubstrOf token decodeMatraStr then
    acc ++ [token]
  else if specials.contains token then
    acc ++ [token]
  else if acc ≠ [] && ! ([0x94D].isPrefixOf token) &&
      ! isSubstrOf token decodeMatraStr then
    acc ++ [[0x20], token]
  else
    acc ++ [token]

/-- Final cleanup `re.sub(r'\s+([।?!,])', r'\1', ·)`: a whitespace run
directly followed by one of the four punctuation marks is deleted. -/
def spaceFixPunctF : Nat → Tok → Tok
  | _, [] => []
  | 0, s => s
  | fuel + 1, c :: rest =>
    if isSpaceCp c then
      match dropLeading isSpaceCp rest with
      | d :: rest3 =>
        if isDecPunct d then d :: spaceFixPunctF fuel rest3
        else c :: spaceFixPunctF fuel rest
      | [] => c :: spaceFixPunctF fuel rest
    else c :: spaceFixPunctF fuel rest

/-- See `spaceFixPunctF`. -/
def spaceFixPunct (s : Tok) : Tok := spaceFixPunctF s.length s

/-- Token list produced by `decode` before assembly: each id through the
inverted vocabulary, `'[UNK]'` as the fallback for unbound ids. -/
def decodeToks (vocab : Vocab) (ids : List Int) : List Tok :=
  ids.map (fun i => (rlookupLast vocab i).getD (s2t "[UNK]"))

/-- App `decode`. -/
def decodeApp (st : TokSt) (ids : List Int) : Tok :=
  spaceFixPunct (wsCollapse (pstrip
    ((decodeToks st.vocab ids).foldl (decodeStep st.specialToks) []).flatten))

/-! Merge trainer (`_get_stats` lines 217-253, `_merge_pair` 255-281,
`train` 283-345).  The training corpus enters as the word-frequency list
produced by the `Counter` over the input file in `most_common()` order;
file reading and batching are presentation-side and change nothing
semantically. -/

/-- Boost cascade of `_get_stats` (lines 229-249). -/
def boostApp (combined : Tok) : Nat :=
  if commonWordsApp.contains combined then 20
  else if combined.any (fun c => matraCharsApp.contains c) then 15
  else if verbalSuffixes.any (fun suf => suf.isSuffixOf combined) then 12
  else if commonSuffixes.any (fun suf => suf.isSuffixOf combined) then 10
  else if commonPrefixList.any (fun pre => pre.isPrefixOf combined) then 8
  else if combined.contains 0x94D then 6
  else 1

/-- Pair-statistics dictionary. -/
abbrev Stats := List ((Tok × Tok) × Nat)

/-- Adjacent symbol pairs `(symbols[j], symbols[j+1])`. -/
def adjPairs (symbols : List Tok) : List (Tok × Tok) :=
  symbols.zip symbols.tail

/-- Inner accumulation `pairs_dict[pair] = pairs_dict.get(pair, 0) +
freq * boost`. -/
def statsAdd (freq : Nat) (d : Stats) (p : Tok × Tok) : Stats :=
  dsetG d p (dget d p + freq * boostApp (p.1 ++ p.2))

/-- App `_get_stats` over the segmented-word dictionary (keys are the
space-joined symbol strings, exactly as in the Python dict). -/
def getStatsApp (words : List (Tok × Nat)) : Stats :=
  words.foldl
    (fun d wf =>
      let symbols := splitWs wf.1
      if symbols.length < 2 then d
      else (adjPairs symbols).foldl (statsAdd wf.2) d)
    []

/-- Candidate filter of `train` (lines 325-328), with Python's operator
precedence: `and` binds tighter than `or`, so this is
`(len > 3 ∧ ends-with-suffix) ∨ starts-with-prefix ∨ contains-joiner`. -/
def plausibleApp (merged : Tok) : Bool :=
  (decide (3 < merged.length) &&
    commonSuffixes.any (fun suf => suf.isSuffixOf merged)) ||
  commonPrefixList.any (fun pre => pre.isPrefixOf merged) ||
  merged.contains 0x94D

/-- Stable descending insertion for `sorted(pairs.items(),
key=lambda x: x[1], reverse=True)`. -/
def insertDesc (x : (Tok × Tok) × Nat) : Stats → Stats
  | [] => [x]
  | y :: ys => if x.2 < y.2 then y :: insertDesc x ys else x :: y :: ys

/-- Python `sorted(·, key=value, reverse=True)` (stable). -/
def sortStats (d : Stats) : Stats := d.foldr insertDesc []

/-- The `best_pairs` loop (lines 321-331): walk the top candidates,
append the plausible ones, stop as soon as ten are kept. -/
def selectPairs (acc : Stats) : Stats → Stats
  | [] => acc
  | (p, f) :: rest =>
    let acc' := if plausibleApp (p.1 ++ p.2) then acc ++ [(p, f)] else acc
    if 10 ≤ acc'.length then acc' else selectPairs acc' rest

/-- Pair selection of one training iteration: sort by weight descending,
restrict to the top 50, filter as above. -/
def trainIterSel (d : Stats) : Stats := selectPairs [] ((sortStats d).take 50)

/-- Replacement string `f"{pair[0]} {pair[1]}"` → merged form, applied to
the flat space-joined word (the Python code does a plain string replace,
not a token-aligned one). -/
def replacePair (pair : Tok × Tok) (s : Tok) : Tok :=
  match pair.1 ++ 0x20 :: pair.2 with
  | [] => s
  | k :: ks => replaceAll k ks (pair.1 ++ pair.2) s

/-- App `_merge_pair`: drop words under `min_freq`, keep single-symbol
words, rewrite the rest (the batching is a concatenation-identical
partition of the same loop). -/
def mergePairApp (minFreq : Nat) (pair : Tok × Tok) (words : List (Tok × Nat)) :
    List (Tok × Nat) :=
  words.foldl
    (fun nw wf =>
      if wf.2 < minFreq then nw
      else
        let parts := splitWs wf.1
        if parts.length < 2 then dsetG nw wf.1 wf.2
        else dsetG nw (replacePair pair (joinSpace parts)) wf.2)
    []

/-- One step of the word-frequency pass of `train` (lines 301-310):
common or very frequent words enter the vocabulary whole; other frequent
words are segmented into the working dictionary. -/
def phase1Step (nfkc : Tok → Tok) (st : TokSt) (words : List (Tok × Nat))
    (wf : Tok × Nat) : TokSt × List (Tok × Nat) :=
  if wf.2 < st.minFreq then (st, words)
  else if commonWordsApp.contains wf.1 || st.minFreq * 5 < wf.2 then
    ({ st with vocab := addToken st.vocab wf.1 }, words)
  else
    (st, dsetG words (joinSpace (tokenizeWordApp st.vocab nfkc wf.1)) wf.2)

/-- The `for best_pair, _ in best_pairs` loop (lines 337-345): stop at the
size cap, skip already-known merged tokens, otherwise rewrite the working
dictionary, register the token (id = old size) and record the merge rule
(rank `len(vocab) - 1` measured after the insertion = old size). -/
def applyMerges (st : TokSt) (words : List (Tok × Nat)) :
    Stats → TokSt × List (Tok × Nat)
  | [] => (st, words)
  | (bp, _) :: rest =>
    if st.vocabSize ≤ st.vocab.length then (st, words)
    else
      let merged := bp.1 ++ bp.2
      if vcontains st.vocab merged then applyMerges st words rest
      else
        applyMerges
          { st with
            vocab := st.vocab ++ [(merged, st.vocab.length)],
            merges := dsetG st.merges bp st.vocab.length }
          (mergePairApp st.minFreq bp words) rest

/-- The `while len(self.vocab) < self.vocab_size` loop of `train`; `fuel`
counts loop iterations (the Python loop is unbounded — every reachable
state is reached at some fuel). -/
def mergeLoop : Nat → TokSt → List (Tok × Nat) → TokSt × List (Tok × Nat)
  | 0, st, words => (st, words)
  | fuel + 1, st, words =>
    if st.vocab.length < st.vocabSize then
      let pairs := getStatsApp words
      if pairs.isEmpty then (st, words)
      else
        let best := trainIterSel pairs
        if best.isEmpty then (st, words)
        else
          let sw := applyMerges st words best
          mergeLoop fuel sw.1 sw.2
    else (st, words)

/-- App `train` on a counted corpus. -/
def trainApp (nfkc : Tok → Tok) (st : TokSt) (wordFreqs : List (Tok × Nat))
    (fuel : Nat) : TokSt × List (Tok × Nat) :=
  let p1 := wordFreqs.foldl (fun sw wf => phase1Step nfkc sw.1 sw.2 wf) (st, [])
  mergeLoop fuel p1.1 p1.2

/-! Persistence (`load`, App lines 361-369).  The pickled artifact is the
record written by `save`; a missing file raises before any mutation, a
missing required key raises at its subscript — after the earlier
assignments have already happened.  `vocab_size` and `min_freq` are read
with `.get` defaults 5000 and 2. -/

/-- Parsed artifact: `none` fields model missing keys. -/
structure SaveData where
  vocab : Option Vocab
  merges : Option (List ((Tok × Tok) × Nat))
  specialToks : Option (List Tok)
  vocabSize : Option Nat
  minFreq : Option Nat

/-- Failures `load` can surface. -/
inductive LoadErr
  | fileNotFound
  | keyErr
deriving DecidableEq

/-- App `load`: the returned state is the object state after the call,
whether it raised (`some e`) or not (`none`) — Python keeps the mutations
made before a raise. -/
def loadApp (file : Option SaveData) (st : TokSt) : TokSt × Option LoadErr :=
  match file with
  | none => (st, some LoadErr.fileNotFound)
  | some d =>
    match d.vocab with
    | none => (st, some LoadErr.keyErr)
    | some v =>
      let st1 := { st with vocab := v }
      match d.merges with
      | none => (st1, some LoadErr.keyErr)
      | some m =>
        let st2 := { st1 with merges := m }
        match d.specialToks with
        | none => (st2, some LoadErr.keyErr)
        | some sp =>
          ({ st2 with
             specialToks := sp,
             vocabSize := d.vocabSize.getD 5000,
             minFreq := d.minFreq.getD 2 }, none)

/-! Src2 variant pieces needed by the claims: `__init__` (lines 10-38) and
the base-vocabulary step of `train` (lines 240-243). -/

/-- Src2 `self.common_words` (30 literals). -/
def commonWordsSrc2 : List Tok :=
  [s2t "में", s2t "का", s2t "की", s2t "के", s2t "है", s2t "से", s2t "को",
   s2t "और", s2t "ने", s2t "पर", s2t "कर", s2t "था", s2t "थी", s2t "थे",
   s2t "हैं", s2t "गया", s2t "गयी", s2t "गये", s2t "रहा", s2t "रही",
   s2t "एक", s2t "यह", s2t "वह", s2t "कि", s2t "जो", s2t "तो", s2t "भी",
   s2t "हो", s2t "कुछ", s2t "अब"]

/-- Src2 `self.base_chars`: 44 letters, 13 matras, and the space from the
blanks of the second string literal (Python set order unspecified; the
space is put last here — no claim depends on the order). -/
def baseCharsSrc2 : List Nat :=
  [0x905, 0x906, 0x907, 0x908, 0x909, 0x90A, 0x90B, 0x90F, 0x910, 0x913,
   0x914, 0x915, 0x916, 0x917, 0x918, 0x919, 0x91A, 0x91B, 0x91C, 0x91D,
   0x91E, 0x91F, 0x920, 0x921, 0x922, 0x923, 0x924, 0x925, 0x926, 0x927,
   0x928, 0x92A, 0x92B, 0x92C, 0x92D, 0x92E, 0x92F, 0x930, 0x932, 0x935,
   0x936, 0x937, 0x938, 0x939,
   0x93E, 0x93F, 0x940, 0x941, 0x942, 0x943, 0x947, 0x948, 0x94B, 0x94C,
   0x902, 0x903, 0x901, 0x20]

/-- Src2 `__init__` vocabulary: common words (unguarded assignments on
fresh distinct keys), then special tokens, then the base characters under
the `char.strip() and char not in self.vocab` guard. -/
def initVocabSrc2 : Vocab :=
  ((baseCharsSrc2.filter (fun c => ! isSpaceCp c)).map (fun c => [c])).foldl
    addToken
    ((commonWordsSrc2 ++ specialToksApp).foldl
      (fun v w => dset v w v.length) [])

/-- Src2 `train` lines 240-243: re-assign every base char and then every
special token with `self.vocab[·] = len(self.vocab)` — without any
membership guard. -/
def trainBaseSrc2 (v : Vocab) : Vocab :=
  specialToksApp.foldl (fun v t => dset v t v.length)
    (baseCharsSrc2.foldl (fun v c => dset v [c] v.length) v)

/-! Claim C3: boost precedence.  The spec's rule list is rendered as an
explicit ordered (predicate, boost) cascade, evaluated first-match-wins,
to compare against the code's `boostApp`. -/

/-- Ordered rule list of the spec's §4.4 boost cascade, with the second
rule reading the code's `matra_chars` set (which contains the joiner). -/
def boostRules : List ((Tok → Bool) × Nat) :=
  [(fun s => commonWordsApp.contains s, 20),
   (fun s => s.any (fun c => matraCharsApp.contains c), 15),
   (fun s => verbalSuffixes.any (fun suf => suf.isSuffixOf s), 12),
   (fun s => commonSuffixes.any (fun suf => suf.isSuffixOf s), 10),
   (fun s => commonPrefixList.any (fun pre => pre.isPrefixOf s), 8),
   (fun s => s.contains 0x94D, 6)]

/-- First-match evaluation of a boost rule list, default 1. -/
def firstMatchBoost (rules : List ((Tok → Bool) × Nat)) (s : Tok) : Nat :=
  match rules with
  | [] => 1
  | (p, b) :: rest => if p s then b else firstMatchBoost rest s

/-- Spec-side pair statistic: every adjacent occurrence of the pair in a
segmented word contributes frequency × boost of the merged string. -/
def statsSpec (words : List (Tok × Nat)) (p : Tok × Tok) : Nat :=
  (words.map (fun wf =>
    let symbols := splitWs wf.1
    if symbols.length < 2 then 0
    else ((adjPairs symbols).count p) * (wf.2 * boostApp (p.1 ++ p.2)))).sum

/-- Concrete state for the C8 witness (reachable: any state works, since
the statement quantifies over all of them). -/
def w8State : TokSt := ⟨[(s2t "[UNK]", 0), (s2t "है", 1)], [], specialToksApp, 8000, 2⟩

/-- Concrete artifact with `vocab` present but `merges` missing. -/
def c9Data : SaveData := ⟨some [(s2t "क", 0)], none, none, none, none⟩

/-- Artifact whose only missing field is `vocab`. -/
def c9DataNoVocab : SaveData := ⟨none, some [], some specialToksApp, none, none⟩

/-- Complete artifact. -/
def c9Full : SaveData :=
  ⟨some [(s2t "क", 0)], some [], some specialToksApp, some 100, some 3⟩

/-- Concrete pre-load state for C9. -/
def c9State : TokSt := ⟨[(s2t "[UNK]", 0)], [], specialToksApp, 8000, 2⟩

/-- Src2 string literal of line 115 (`"ािीुूृेैोौंँःृ्"`). -/
def src2TrailMarks : List Nat :=
  [0x93E, 0x93F, 0x940, 0x941, 0x942, 0x943, 0x947, 0x948, 0x94B, 0x94C,
   0x902, 0x901, 0x903, 0x943, 0x94D]

/-- One iteration of the Src2 `_tokenize_word` loop (lines 90-118):
longest common-word match up to 6 chars, else a virama cluster up to the
next vowel mark (line 103-110), else one char plus its trailing marks. -/
def stepTokSrc2 (c : Nat) (rest : Tok) : Tok × Tok :=
  match findMatchSrc2 (c :: rest) (min 6 (rest.length + 1)) with
  | some n => ((c :: rest).take n, (c :: rest).drop n)
  | none =>
    let fb : Tok × Tok :=
      (c :: rest.takeWhile (fun x => src2TrailMarks.contains x),
       rest.dropWhile (fun x => src2TrailMarks.contains x))
    match rest with
    | 0x94D :: rest2 =>
      let consumed := rest2.takeWhile (fun x => ! syllableMatras.contains x)
      if consumed.isEmpty then fb
      else (c :: 0x94D :: consumed,
        rest2.dropWhile (fun x => ! syllableMatras.contains x))
    | _ => fb
where
  /-- The `for length in range(min(6, len(word)-i), 0, -1)` search over
  `common_words` membership only. -/
  findMatchSrc2 (w : Tok) : Nat → Option Nat
    | 0 => none
    | n + 1 =>
      if commonWordsSrc2.contains (w.take (n + 1)) then some (n + 1)
      else findMatchSrc2 w n

/-- Fuel-structured worker for the Src2 segmenter loop. -/
def tokenizeCoreSrc2F : Nat → Tok → List Tok
  | _, [] => []
  | 0, _ => []
  | fuel + 1, c :: rest =>
    (stepTokSrc2 c rest).1 :: tokenizeCoreSrc2F fuel (stepTokSrc2 c rest).2

/-- Src2 `_tokenize_word` main loop on a normalized word. -/
def tokenizeCoreSrc2 (s : Tok) : List Tok := tokenizeCoreSrc2F s.length s

/-- Src2 `_tokenize_word`. -/
def tokenizeWordSrc2 (nfkc : Tok → Tok) (w : Tok) : List Tok :=
  let word := normalizeSrc2 nfkc w
  if commonWordsSrc2.contains word then [word] else tokenizeCoreSrc2 word

/-- No two adjacent characters of the class `q`. -/
def noTwoAdj (q : Nat → Bool) : Tok → Bool
  | [] => true
  | [_] => true
  | a :: b :: rest => (! (q a && q b)) && noTwoAdj q (b :: rest)

/-- Head satisfies `q` (vacuously true for the empty string). -/
def hdAll (q : Nat → Bool) (s : Tok) : Bool := s.head?.all q

/-- Last character satisfies `q` (vacuously true for the empty string). -/
def lastAll (q : Nat → Bool) (s : Tok) : Bool := s.getLast?.all q

/-- Fuel-structured checker that every maximal run of dots in a string has
length exactly 1 or exactly 3 (the shape `re.sub(r'\.{2,}', '...', ·)`
leaves behind). -/
def dotRuns3F : Nat → Tok → Bool
  | _, [] => true
  | 0, _ => true
  | fuel + 1, c :: rest =>
    if isDotCp c then
      ((1 + (rest.takeWhile isDotCp).length == 1) ||
        (1 + (rest.takeWhile isDotCp).length == 3)) &&
        dotRuns3F fuel (dropLeading isDotCp rest)
    else dotRuns3F fuel rest

/-- Every maximal dot run of `s` has length 1 or 3. -/
def dotRuns3 (s : Tok) : Bool := dotRuns3F s.length s

/-- Small reachable tokenizer state used for the encode-length theorems:
a vocabulary holding only the `"[UNK]"` marker (as left behind by `load`
of an artifact with such a vocabulary). -/
def c6State : TokSt := ⟨[(s2t "[UNK]", 0)], [], specialToksApp, 8000, 2⟩

/-- Concrete state for the C10 witness. -/
def w10State : TokSt := ⟨[(s2t "[UNK]", 0), (s2t "क", 1)], [], specialToksApp, 8000, 2⟩

theorem dropLeading_length_le (p : Nat → Bool) (s : Tok) :
    (dropLeading p s).length ≤ s.length :=
  (s.dropWhile_sublist p).length_le

theorem runMapF_irrel (p : Nat → Bool) (g : Nat → Tok) (f1 f2 : Nat)
    (s : Tok) (h1 : s.length ≤ f1) (h2 : s.length ≤ f2) :
    runMapF p g f1 s = runMapF p g f2 s := by
  induction f1 generalizing f2 s with
  | zero =>
    cases s with
    | nil => cases f2 <;> rfl
    | cons c r => simp at h1
  | succ k ih =>
    cases s with
    | nil => cases f2 <;> rfl
    | cons c r =>
      cases f2 with
      | zero => simp at h2
      | succ k2 =>
        simp only [runMapF]
        simp only [List.length_cons] at h1 h2
        by_cases hp : p c
        · rw [if_pos hp, if_pos hp,
            ih k2 (dropLeading p r)
              (le_trans ((List.dropWhile_sublist _).length_le) (by omega))
              (le_trans ((List.dropWhile_sublist _).length_le) (by omega))]
        · rw [if_neg hp, if_neg hp, ih k2 r (by omega) (by omega)]

theorem runMap_nil (p : Nat → Bool) (g : Nat → Tok) : runMap p g [] = [] := rfl

theorem runMap_cons (p : Nat → Bool) (g : Nat → Tok) (c : Nat) (rest : Tok) :
    runMap p g (c :: rest) =
      if p c then
        g (1 + (rest.takeWhile p).length) ++ runMap p g (dropLeading p rest)
      else
        c :: runMap p g rest := by
  show runMapF p g (rest.length + 1) (c :: rest) = _
  simp only [runMapF]
  by_cases hp : p c
  · rw [if_pos hp, if_pos hp,
      runMapF_irrel p g rest.length (dropLeading p rest).length
        (dropLeading p rest) (dropLeading_length_le p rest) (Nat.le_refl _)]
    rfl
  · rw [if_neg hp, if_neg hp]
    rfl

theorem replaceAllF_irrel (k : Nat) (ks val : Tok) (f1 f2 : Nat) (s : Tok)
    (h1 : s.length ≤ f1) (h2 : s.length ≤ f2) :
    replaceAllF k ks val f1 s = replaceAllF k ks val f2 s := by
  induction f1 generalizing f2 s with
  | zero =>
    cases s with
    | nil => cases f2 <;> rfl
    | cons c r => simp at h1
  | succ n ih =>
    cases s with
    | nil => cases f2 <;> rfl
    | cons c r =>
      cases f2 with
      | zero => simp at h2
      | succ n2 =>
        simp only [replaceAllF]
        simp only [List.length_cons] at h1 h2
        by_cases hp : (c = k && ks.isPrefixOf r) = true
        · rw [if_pos hp, if_pos hp, ih n2 (r.drop ks.length)
            (by simp only [List.length_drop]; omega)
            (by simp only [List.length_drop]; omega)]
        · rw [if_neg hp, if_neg hp, ih n2 r (by omega) (by omega)]

theorem replaceAll_nil (k : Nat) (ks val : Tok) : replaceAll k ks val [] = [] := rfl

theorem replaceAll_cons (k : Nat) (ks val : Tok) (c : Nat) (rest : Tok) :
    replaceAll k ks val (c :: rest) =
      if c = k && ks.isPrefixOf rest then
        val ++ replaceAll k ks val (rest.drop ks.length)
      else
        c :: replaceAll k ks val rest := by
  show replaceAllF k ks val (rest.length + 1) (c :: rest) = _
  simp only [replaceAllF]
  by_cases hp : (c = k && ks.isPrefixOf rest) = true
  · rw [if_pos hp, if_pos hp,
      replaceAllF_irrel k ks val rest.length (rest.drop ks.length).length
        (rest.drop ks.length) (by simp only [List.length_drop]; omega)
        (Nat.le_refl _)]
    rfl
  · rw [if_neg hp, if_neg hp]
    rfl

theorem splitWsF_irrel (f1 f2 : Nat) (s : Tok)
    (h1 : s.length ≤ f1) (h2 : s.length ≤ f2) :
    splitWsF f1 s = splitWsF f2 s := by
  induction f1 generalizing f2 s with
  | zero =>
    cases s with
    | nil => cases f2 <;> rfl
    | cons c r => simp at h1
  | succ n ih =>
    cases s with
    | nil => cases f2 <;> rfl
    | cons c r =>
      cases f2 with
      | zero => simp at h2
      | succ n2 =>
        simp only [splitWsF]
        simp only [List.length_cons] at h1 h2
        by_cases hp : isSpaceCp c
        · rw [if_pos hp, if_pos hp, ih n2 r (by omega) (by omega)]
        · rw [if_neg hp, if_neg hp, ih n2 (r.dropWhile _)
            (le_trans ((List.dropWhile_sublist _).length_le) (by omega))
            (le_trans ((List.dropWhile_sublist _).length_le) (by omega))]

theorem splitWs_nil : splitWs [] = [] := rfl

theorem splitWs_cons (c : Nat) (rest : Tok) :
    splitWs (c :: rest) =
      if isSpaceCp c then splitWs rest
      else
        (c :: rest.takeWhile (fun x => ! isSpaceCp x)) ::
          splitWs (rest.dropWhile (fun x => ! isSpaceCp x)) := by
  show splitWsF (rest.length + 1) (c :: rest) = _
  simp only [splitWsF]
  by_cases hp : isSpaceCp c
  · rw [if_pos hp, if_pos hp]; rfl
  · rw [if_neg hp, if_neg hp,
      splitWsF_irrel rest.length (rest.dropWhile (fun x => ! isSpaceCp x)).length
        (rest.dropWhile (fun x => ! isSpaceCp x))
        ((List.dropWhile_sublist _).length_le) (Nat.le_refl _)]; rfl

theorem findMatchLen_pos (vocab : Vocab) (w : Tok) (n m : Nat)
    (h : findMatchLen vocab w n = some m) : 1 ≤ m := by
  induction n with
  | zero => simp [findMatchLen] at h
  | succ k ih =>
    simp only [findMatchLen] at h
    split at h
    · cases h; omega
    · exact ih h

theorem collectHal_append (u : Tok) :
    (collectHal u).1 ++ (collectHal u).2 = u := by
  induction u using collectHal.induct with
  | case1 b rest2 hb ih => simp only [collectHal, if_pos hb]; simpa using ih
  | case2 b rest2 hb =>
    simp only [collectHal]
    rw [if_neg (by simpa using hb)]
    simp
  | case3 u hu => simp [collectHal, hu]

theorem collectHal_snd_length (u : Tok) :
    (collectHal u).2.length ≤ u.length := by
  have h := collectHal_append u
  have := congrArg List.length h
  simp only [List.length_append] at this
  omega

theorem stepTok_append (vocab : Vocab) (c : Nat) (rest : Tok) :
    (stepTok vocab c rest).1 ++ (stepTok vocab c rest).2 = c :: rest := by
  unfold stepTok
  split
  · simp
  · split
    · next he => simp [List.isEmpty_iff.mp he]
    · dsimp only
      split
      · have h1 := collectHal_append rest
        have h2 := List.takeWhile_append_dropWhile
          (p := fun x => matraCharsApp.contains x) (l := (collectHal rest).2)
        simp only [List.cons_append, List.append_assoc, h2, h1]
      · simp [List.takeWhile_append_dropWhile]

theorem stepTok_snd_length (vocab : Vocab) (c : Nat) (rest : Tok) :
    (stepTok vocab c rest).2.length ≤ rest.length := by
  unfold stepTok
  split
  · next n hn =>
    have h1 : 1 ≤ n := findMatchLen_pos _ _ _ _ hn
    simp only [List.length_drop, List.length_cons]
    omega
  · split
    · simp
    · dsimp only
      split
      · exact le_trans ((List.dropWhile_sublist _).length_le)
          (collectHal_snd_length rest)
      · exact (List.dropWhile_sublist _).length_le

theorem stepTok_fst_ne_nil (vocab : Vocab) (c : Nat) (rest : Tok) :
    (stepTok vocab c rest).1 ≠ [] := by
  have h := stepTok_append vocab c rest
  intro hnil
  rw [hnil, List.nil_append] at h
  have := congrArg List.length h
  have h2 := stepTok_snd_length vocab c rest
  simp only [List.length_cons] at this
  omega

theorem tokenizeCoreF_irrel (vocab : Vocab) (f1 f2 : Nat) (s : Tok)
    (h1 : s.length ≤ f1) (h2 : s.length ≤ f2) :
    tokenizeCoreF vocab f1 s = tokenizeCoreF vocab f2 s := by
  induction f1 generalizing f2 s with
  | zero =>
    cases s with
    | nil => cases f2 <;> rfl
    | cons c r => simp at h1
  | succ n ih =>
    cases s with
    | nil => cases f2 <;> rfl
    | cons c r =>
      cases f2 with
      | zero => simp at h2
      | succ n2 =>
        simp only [tokenizeCoreF, List.cons.injEq, true_and]
        simp only [List.length_cons] at h1 h2
        exact ih n2 (stepTok vocab c r).2
          (le_trans (stepTok_snd_length _ _ _) (by omega))
          (le_trans (stepTok_snd_length _ _ _) (by omega))

theorem tokenizeCore_nil (vocab : Vocab) : tokenizeCore vocab [] = [] := rfl

theorem tokenizeCore_cons (vocab : Vocab) (c : Nat) (rest : Tok) :
    tokenizeCore vocab (c :: rest) =
      (stepTok vocab c rest).1 :: tokenizeCore vocab (stepTok vocab c rest).2 := by
  show tokenizeCoreF vocab (rest.length + 1) (c :: rest) = _
  simp only [tokenizeCoreF, List.cons.injEq, true_and]
  exact tokenizeCoreF_irrel vocab rest.length (stepTok vocab c rest).2.length _
    (stepTok_snd_length _ _ _) (Nat.le_refl _)

theorem dget_dsetG {K : Type} [DecidableEq K] (d : List (K × Nat))
    (k k' : K) (v : Nat) :
    dget (dsetG d k v) k' = if k = k' then v else dget d k' := by
  induction d with
  | nil =>
    by_cases h : k = k'
    · subst h; simp [dsetG, dget]
    · have h' : ¬ k' = k := fun hh => h hh.symm
      simp [dsetG, dget, h, h']
  | cons kv rest ih =>
    obtain ⟨k0, v0⟩ := kv
    simp only [dsetG]
    by_cases h0 : k0 = k
    · subst h0
      by_cases h1 : k0 = k'
      · subst h1; simp [dget]
      · simp [dget, h1]
    · by_cases h1 : k0 = k'
      · subst h1
        have : ¬ k = k0 := fun hh => h0 hh.symm
        simp [dget, dsetG, h0, this]
      · simp [dget, dsetG, h0, h1, ih]

theorem dget_statsAdd_fold (f : Nat) (pairs : List (Tok × Tok)) (d : Stats)
    (p : Tok × Tok) :
    dget (pairs.foldl (statsAdd f) d) p =
      dget d p + pairs.count p * (f * boostApp (p.1 ++ p.2)) := by
  induction pairs generalizing d with
  | nil => simp
  | cons q rest ih =>
    simp only [List.foldl_cons, ih, List.count_cons]
    unfold statsAdd
    rw [dget_dsetG]
    by_cases hq : q = p
    · subst hq; simp [Nat.add_mul, Nat.mul_comm]; ring
    · have : ¬ (p == q) = true := by
        simp only [beq_iff_eq]; exact fun hh => hq hh.symm
      simp [hq, this]

theorem dget_getStatsApp (words : List (Tok × Nat)) (p : Tok × Tok) :
    dget (getStatsApp words) p = statsSpec words p := by
  suffices h : ∀ d : Stats,
      dget (words.foldl
        (fun d wf =>
          let symbols := splitWs wf.1
          if symbols.length < 2 then d
          else (adjPairs symbols).foldl (statsAdd wf.2) d) d) p =
      dget d p + statsSpec words p by
    have := h []
    simpa [getStatsApp, dget] using this
  induction words with
  | nil => intro d; simp [statsSpec]
  | cons wf rest ih =>
    intro d
    simp only [List.foldl_cons, statsSpec, List.map_cons, List.sum_cons]
    by_cases hlen : (splitWs wf.1).length < 2
    · simp only [if_pos hlen, ih]
      simp [statsSpec, hlen]
    · simp only [if_neg hlen, ih, dget_statsAdd_fold]
      simp [statsSpec, hlen]
      ring

/-- Claim C3 (amended): the pair-statistic contribution of every adjacent
pair is word frequency × a single boost selected by the first matching
rule of the precedence list 20/15/12/10/8/6/1 — where the matra rule
tests membership in the code's matra set, which contains the joiner ्,
so a merged string containing the joiner receives boost 15 (or 20 as a
common word); the boost-6 branch is unreachable. -/
theorem boost_first_match_and_stats :
    (∀ s : Tok, boostApp s = firstMatchBoost boostRules s) ∧
    (∀ s : Tok, s.contains 0x94D →
      boostApp s = if commonWordsApp.contains s then 20 else 15) ∧
    (∀ (words : List (Tok × Nat)) (p : Tok × Tok),
      dget (getStatsApp words) p = statsSpec words p) := by
  refine ⟨fun s => rfl, fun s h => ?_, dget_getStatsApp⟩
  have hmem : (0x94D : Nat) ∈ s := by simpa using h
  have hany : (s.any (fun c => matraCharsApp.contains c)) = true := by
    refine List.any_eq_true.mpr ⟨0x94D, hmem, by decide⟩
  unfold boostApp
  by_cases hc : commonWordsApp.contains s = true
  · have hc' : s ∈ commonWordsApp := by simpa using hc
    simp [hc']
  · have hc' : s ∉ commonWordsApp := by simpa using hc
    have hm : ∃ x ∈ s, x ∈ matraCharsApp := by simpa using hany
    simp [hc', hm]

/-- Witness for `boost_first_match_and_stats` at the concrete merged
string "क्क" (contains the joiner, is not a common word). -/
theorem boost_first_match_and_stats_witness :
    (s2t "क्क").contains 0x94D = true ∧
    boostApp (s2t "क्क") =
      if commonWordsApp.contains (s2t "क्क") then 20 else 15 :=
  ⟨by decide, boost_first_match_and_stats.2.1 (s2t "क्क") (by decide)⟩

/-- Counterexample to claim C3 as stated: the merged string "क्क", whose
only matching feature in the spec's list is containing the joiner, gets
boost 15 (via the matra rule — ् is a member of the code's matra set),
not 6. -/
theorem boost_joiner_not_six :
    boostApp (s2t "क्क") ≠ 6 ∧ boostApp (s2t "क्क") = 15 := by
  constructor
  · decide
  · decide

/-- Claim C4: the training-iteration selection evaluated at the pair
statistics of the segmented word "सु अ" (frequency 5, reachable from the
corpus word "सुअ").  The pair ("सु", "अ") is retained although its merged
form has length 3, because Python's `and` binds tighter than `or`: the
code's filter is `(len > 3 ∧ suffix) ∨ prefix ∨ joiner`, not the spec's
`len > 3 ∧ (suffix ∨ prefix ∨ joiner)`. -/
theorem select_keeps_short_merged :
    trainIterSel (getStatsApp [(s2t "सु अ", 5)]) =
      [((s2t "सु", s2t "अ"), 75)] ∧
    plausibleApp (s2t "सु" ++ s2t "अ") = true ∧
    ¬ 3 < (s2t "सु" ++ s2t "अ").length := by
  refine ⟨by decide, by decide, by decide⟩

set_option maxHeartbeats 40000000 in
/-- Claim C1: after the base-vocabulary step of Src2 `train` (lines
240-243), the token-to-id map is no longer injective: the special tokens
`[UNK]` and `[PAD]` — distinct tokens with distinct ids 30 and 31 after
construction — are both re-assigned id 92, so reverse lookup cannot
return both. -/
theorem src2_trainbase_breaks_bijection :
    vlookup (trainBaseSrc2 initVocabSrc2) (s2t "[UNK]") = some 92 ∧
    vlookup (trainBaseSrc2 initVocabSrc2) (s2t "[PAD]") = some 92 ∧
    s2t "[UNK]" ≠ s2t "[PAD]" ∧
    vlookup initVocabSrc2 (s2t "[UNK]") = some 30 ∧
    vlookup initVocabSrc2 (s2t "[PAD]") = some 31 := by
  refine ⟨by decide, by decide, by decide, by decide, by decide⟩

/-- Reverse lookup misses exactly when no entry carries the id. -/
theorem rlookupLast_eq_none (v : Vocab) (i : Int)
    (h : ∀ q ∈ v, (q.2 : Int) ≠ i) : rlookupLast v i = none := by
  induction v with
  | nil => rfl
  | cons kv rest ih =>
    simp only [rlookupLast]
    rw [ih (fun q hq => h q (List.mem_cons_of_mem kv hq))]
    have := h kv (List.mem_cons_self kv rest)
    simp [this]

/-- Claim C8: decode of the empty sequence is the empty string, encode of
the empty string is the empty sequence (whenever the external NFKC fixes
the empty string, as Unicode normalization does), decode produces one
token per input integer without any failure, and every id not assigned in
the vocabulary — negative or out of range — becomes the `"[UNK]"`
marker. -/
theorem decode_total_fallback_empty (st : TokSt) (nfkc : Tok → Tok)
    (ids : List Int) (k : Nat) (hnf : nfkc [] = []) (hk : k < ids.length) :
    decodeApp st [] = [] ∧
    encodeApp nfkc st [] = some [] ∧
    (decodeToks st.vocab ids).length = ids.length ∧
    ((∀ q ∈ st.vocab, (q.2 : Int) ≠ ids.getD k 0) →
      (decodeToks st.vocab ids).getD k [] = s2t "[UNK]") := by
  refine ⟨rfl, ?_, by simp [decodeToks], ?_⟩
  · show encodeWords st.vocab nfkc (splitWs (normalizeApp nfkc [])) = some []
    have : normalizeApp nfkc [] = [] := by
      unfold normalizeApp
      rw [show pstrip [] = [] from rfl, hnf]
      rfl
    rw [this]
    rfl
  · intro hnone
    have hlt : k < (decodeToks st.vocab ids).length := by
      simpa [decodeToks] using hk
    unfold decodeToks
    rw [List.getD_eq_getElem?_getD, List.getElem?_map]
    have hval : ids[k]? = some (ids.getD k 0) := by
      rw [List.getD_eq_getElem?_getD, List.getElem?_eq_getElem hk]
      rfl
    rw [hval]
    simp only [Option.map_some']
    rw [rlookupLast_eq_none st.vocab _ hnone]
    rfl

/-- Witness for `decode_total_fallback_empty` at id list `[-1]`. -/
theorem decode_total_fallback_empty_witness :
    decodeApp w8State [] = [] ∧
    encodeApp id w8State [] = some [] ∧
    (decodeToks w8State.vocab [-1]).length = 1 ∧
    (decodeToks w8State.vocab [-1]).getD 0 [] = s2t "[UNK]" := by
  have h := decode_total_fallback_empty w8State id [-1] 0 rfl (by decide)
  exact ⟨h.1, h.2.1, h.2.2.1, h.2.2.2 (by decide)⟩

/-- Id emitted for one subword is an assigned id. -/
theorem encodeTok_assigned (v : Vocab) (t : Tok) (i : Nat)
    (h : encodeTok v t = some i) : ∃ t', vlookup v t' = some i := by
  unfold encodeTok at h
  split at h
  · exact ⟨t, by simp_all⟩
  · exact ⟨s2t "[UNK]", h⟩

theorem encodeToks_assigned (v : Vocab) (ts : List Tok) (ids : List Nat)
    (h : encodeToks v ts = some ids) :
    ∀ i ∈ ids, ∃ t', vlookup v t' = some i := by
  induction ts generalizing ids with
  | nil =>
    rw [show encodeToks v [] = some [] from rfl] at h
    cases h; simp
  | cons t rest ih =>
    simp only [encodeToks] at h
    split at h
    · next i0 is0 hi0 his0 =>
      cases h
      intro i hi
      rcases List.mem_cons.mp hi with h1 | h1
      · exact h1 ▸ encodeTok_assigned v t i0 hi0
      · exact ih is0 his0 i h1
    · cases h

theorem encodeWords_assigned (v : Vocab) (nfkc : Tok → Tok) (ws : List Tok)
    (ids : List Nat) (h : encodeWords v nfkc ws = some ids) :
    ∀ i ∈ ids, ∃ t', vlookup v t' = some i := by
  induction ws generalizing ids with
  | nil =>
    rw [show encodeWords v nfkc [] = some [] from rfl] at h
    cases h; simp
  | cons w rest ih =>
    simp only [encodeWords] at h
    split at h
    · next is0 js0 his0 hjs0 =>
      cases h
      intro i hi
      rcases List.mem_append.mp hi with h1 | h1
      · unfold encodeWordApp at his0
        split at his0
        · next j hj =>
          cases his0
          simp only [List.mem_singleton] at h1
          exact ⟨w, h1 ▸ hj⟩
        · exact encodeToks_assigned v _ is0 his0 i h1
      · exact ih js0 hjs0 i h1
    · cases h

/-- Claim C10: whenever `encode` succeeds, every returned integer is an id
assigned in the vocabulary (a looked-up token's id or the `"[UNK]"` id) —
in particular reverse lookup finds a token for it, and as a `Nat` it is
never negative. -/
theorem encode_ids_assigned (nfkc : Tok → Tok) (st : TokSt) (text : Tok)
    (ids : List Nat) (h : encodeApp nfkc st text = some ids) :
    ∀ i ∈ ids, ∃ t', vlookup st.vocab t' = some i :=
  encodeWords_assigned st.vocab nfkc _ ids h

/-- Claim C9 (amended): `load` fails fast — a missing file or a missing
required field (`vocab`, `merges`, `special_tokens`) surfaces an error,
and it succeeds exactly when all three are present; the store is
untouched when the file is missing or when already the first field
`vocab` is absent; but when a later field is missing, the fields read
before it have already been overwritten, so the store can be left
partially initialized. -/
theorem load_failfast (file : Option SaveData) (st : TokSt) :
    (loadApp none st = (st, some LoadErr.fileNotFound)) ∧
    (∀ d : SaveData, d.vocab = none →
      loadApp (some d) st = (st, some LoadErr.keyErr)) ∧
    (∀ (d : SaveData) v m sp, d.vocab = some v → d.merges = some m →
      d.specialToks = some sp →
      loadApp (some d) st =
        (⟨v, m, sp, d.vocabSize.getD 5000, d.minFreq.getD 2⟩, none)) ∧
    ((loadApp file st).2 = none ↔
      ∃ d, file = some d ∧ d.vocab ≠ none ∧ d.merges ≠ none ∧
        d.specialToks ≠ none) := by
  refine ⟨rfl, ?_, ?_, ?_⟩
  · intro d hd
    simp [loadApp, hd]
  · intro d v m sp hv hm hsp
    simp [loadApp, hv, hm, hsp]
  · cases file with
    | none => simp [loadApp]
    | some d =>
      cases hv : d.vocab with
      | none => simp [loadApp, hv]
      | some v =>
        cases hm : d.merges with
        | none => simp [loadApp, hv, hm]
        | some m =>
          cases hsp : d.specialToks with
          | none => simp [loadApp, hv, hm, hsp]
          | some sp => simp [loadApp, hv, hm, hsp]

/-- Counterexample to claim C9 as stated: loading an artifact that has a
`vocab` field but no `merges` field raises, yet the vocabulary store has
already been overwritten — the tokenizer is left partially initialized. -/
theorem load_partial_overwrite :
    (loadApp (some c9Data) c9State).2 = some LoadErr.keyErr ∧
    (loadApp (some c9Data) c9State).1.vocab ≠ c9State.vocab := by
  exact ⟨rfl, by decide⟩

/-- Witness for `load_failfast` at concrete artifacts. -/
theorem load_failfast_witness :
    loadApp none c9State = (c9State, some LoadErr.fileNotFound) ∧
    loadApp (some c9DataNoVocab) c9State = (c9State, some LoadErr.keyErr) ∧
    loadApp (some c9Full) c9State =
      (⟨[(s2t "क", 0)], [], specialToksApp, 100, 3⟩, none) := by
  have h := load_failfast (some c9Full) c9State
  exact ⟨h.1, h.2.1 c9DataNoVocab rfl,
    h.2.2.1 c9Full [(s2t "क", 0)] [] specialToksApp rfl rfl rfl⟩

/-! Claim C2: lossless segmentation.  Each loop iteration of
`_tokenize_word` emits exactly the slice of the word it consumes, in both
variants. -/

theorem tokenizeCore_flatten (vocab : Vocab) (s : Tok) :
    (tokenizeCore vocab s).flatten = s := by
  have H : ∀ (n : Nat) (s : Tok), s.length ≤ n →
      (tokenizeCore vocab s).flatten = s := by
    intro n
    induction n with
    | zero =>
      intro s hs
      cases s with
      | nil => rfl
      | cons c r => simp at hs
    | succ k ih =>
      intro s hs
      cases s with
      | nil => rfl
      | cons c rest =>
        rw [tokenizeCore_cons, List.flatten_cons,
          ih _ (le_trans (stepTok_snd_length vocab c rest)
            (by simpa using Nat.le_of_succ_le_succ hs)),
          stepTok_append]
  exact H s.length s (Nat.le_refl _)

/-- Claim C2, App half: the segmenter's output concatenates back to the
normalized input word. -/
theorem tokenizeWordApp_flatten (vocab : Vocab) (nfkc : Tok → Tok) (w : Tok) :
    (tokenizeWordApp vocab nfkc w).flatten = normalizeApp nfkc w := by
  unfold tokenizeWordApp
  by_cases h : vcontains vocab (normalizeApp nfkc w) = true
  · simp [h]
  · simp [h, tokenizeCore_flatten]

theorem stepTokSrc2_findMatch_pos (w : Tok) (n m : Nat)
    (h : stepTokSrc2.findMatchSrc2 w n = some m) : 1 ≤ m := by
  induction n with
  | zero => simp [stepTokSrc2.findMatchSrc2] at h
  | succ k ih =>
    simp only [stepTokSrc2.findMatchSrc2] at h
    split at h
    · cases h; omega
    · exact ih h

theorem stepTokSrc2_append (c : Nat) (rest : Tok) :
    (stepTokSrc2 c rest).1 ++ (stepTokSrc2 c rest).2 = c :: rest := by
  unfold stepTokSrc2
  split
  · simp
  · dsimp only
    split
    · next rest2 =>
      split
      · simp [List.takeWhile_append_dropWhile]
      · simp [List.takeWhile_append_dropWhile]
    · simp [List.takeWhile_append_dropWhile]

theorem stepTokSrc2_snd_length (c : Nat) (rest : Tok) :
    (stepTokSrc2 c rest).2.length ≤ rest.length := by
  unfold stepTokSrc2
  split
  · next n hn =>
    have h1 : 1 ≤ n := stepTokSrc2_findMatch_pos _ _ _ hn
    simp only [List.length_drop, List.length_cons]
    omega
  · dsimp only
    split
    · next rest2 =>
      split
      · exact (List.dropWhile_sublist _).length_le
      · exact le_trans ((List.dropWhile_sublist _).length_le) (by simp)
    · exact (List.dropWhile_sublist _).length_le

theorem tokenizeCoreSrc2F_irrel (f1 f2 : Nat) (s : Tok)
    (h1 : s.length ≤ f1) (h2 : s.length ≤ f2) :
    tokenizeCoreSrc2F f1 s = tokenizeCoreSrc2F f2 s := by
  induction f1 generalizing f2 s with
  | zero =>
    cases s with
    | nil => cases f2 <;> rfl
    | cons c r => simp at h1
  | succ n ih =>
    cases s with
    | nil => cases f2 <;> rfl
    | cons c r =>
      cases f2 with
      | zero => simp at h2
      | succ n2 =>
        simp only [tokenizeCoreSrc2F, List.cons.injEq, true_and]
        simp only [List.length_cons] at h1 h2
        exact ih n2 (stepTokSrc2 c r).2
          (le_trans (stepTokSrc2_snd_length _ _) (by omega))
          (le_trans (stepTokSrc2_snd_length _ _) (by omega))

theorem tokenizeCoreSrc2_cons (c : Nat) (rest : Tok) :
    tokenizeCoreSrc2 (c :: rest) =
      (stepTokSrc2 c rest).1 :: tokenizeCoreSrc2 (stepTokSrc2 c rest).2 := by
  show tokenizeCoreSrc2F (rest.length + 1) (c :: rest) = _
  simp only [tokenizeCoreSrc2F, List.cons.injEq, true_and]
  exact tokenizeCoreSrc2F_irrel rest.length (stepTokSrc2 c rest).2.length _
    (stepTokSrc2_snd_length _ _) (Nat.le_refl _)

theorem tokenizeCoreSrc2_flatten (s : Tok) :
    (tokenizeCoreSrc2 s).flatten = s := by
  have H : ∀ (n : Nat) (s : Tok), s.length ≤ n →
      (tokenizeCoreSrc2 s).flatten = s := by
    intro n
    induction n with
    | zero =>
      intro s hs
      cases s with
      | nil => rfl
      | cons c r => simp at hs
    | succ k ih =>
      intro s hs
      cases s with
      | nil => rfl
      | cons c rest =>
        rw [tokenizeCoreSrc2_cons, List.flatten_cons,
          ih _ (le_trans (stepTokSrc2_snd_length c rest)
            (by simpa using Nat.le_of_succ_le_succ hs)),
          stepTokSrc2_append]
  exact H s.length s (Nat.le_refl _)

/-- Claim C2: in both variants, concatenating the subword strings the
segmenter returns reproduces exactly the normalized form of the input
word. -/
theorem tokenize_word_lossless (vocab : Vocab) (nfkc : Tok → Tok) (w : Tok) :
    (tokenizeWordApp vocab nfkc w).flatten = normalizeApp nfkc w ∧
    (tokenizeWordSrc2 nfkc w).flatten = normalizeSrc2 nfkc w := by
  refine ⟨tokenizeWordApp_flatten vocab nfkc w, ?_⟩
  unfold tokenizeWordSrc2
  by_cases h : normalizeSrc2 nfkc w ∈ commonWordsSrc2
  · simp [h]
  · simp [h, tokenizeCoreSrc2_flatten]

/-! Claim C5: training monotonicity and the size cap. -/

theorem addToken_length_le (v : Vocab) (t : Tok) :
    v.length ≤ (addToken v t).length ∧ (addToken v t).length ≤ v.length + 1 := by
  unfold addToken
  split
  · omega
  · simp

theorem phase1Step_vocab (nfkc : Tok → Tok) (st : TokSt)
    (words : List (Tok × Nat)) (wf : Tok × Nat) :
    st.vocab.length ≤ (phase1Step nfkc st words wf).1.vocab.length ∧
    (phase1Step nfkc st words wf).1.vocabSize = st.vocabSize := by
  unfold phase1Step
  split
  · exact ⟨Nat.le_refl _, rfl⟩
  · split
    · exact ⟨(addToken_length_le st.vocab wf.1).1, rfl⟩
    · exact ⟨Nat.le_refl _, rfl⟩

theorem phase1_vocab (nfkc : Tok → Tok) (wfs : List (Tok × Nat))
    (sw : TokSt × List (Tok × Nat)) :
    sw.1.vocab.length ≤
      (wfs.foldl (fun sw wf => phase1Step nfkc sw.1 sw.2 wf) sw).1.vocab.length ∧
    (wfs.foldl (fun sw wf => phase1Step nfkc sw.1 sw.2 wf) sw).1.vocabSize =
      sw.1.vocabSize := by
  induction wfs generalizing sw with
  | nil => exact ⟨Nat.le_refl _, rfl⟩
  | cons wf rest ih =>
    simp only [List.foldl_cons]
    have h1 := phase1Step_vocab nfkc sw.1 sw.2 wf
    have h2 := ih (phase1Step nfkc sw.1 sw.2 wf)
    exact ⟨le_trans h1.1 h2.1, h2.2.trans h1.2⟩

theorem applyMerges_vocab (st : TokSt) (words : List (Tok × Nat)) (l : Stats) :
    st.vocab.length ≤ (applyMerges st words l).1.vocab.length ∧
    (applyMerges st words l).1.vocab.length ≤
      max st.vocab.length st.vocabSize ∧
    (applyMerges st words l).1.vocabSize = st.vocabSize := by
  induction l generalizing st words with
  | nil => exact ⟨Nat.le_refl _, Nat.le_max_left _ _, rfl⟩
  | cons bpf rest ih =>
    obtain ⟨bp, f⟩ := bpf
    simp only [applyMerges]
    split
    · exact ⟨Nat.le_refl _, Nat.le_max_left _ _, rfl⟩
    · next hlt =>
      split
      · exact ih st words
      · have h := ih
          { st with
            vocab := st.vocab ++ [(bp.1 ++ bp.2, st.vocab.length)],
            merges := dsetG st.merges bp st.vocab.length }
          (mergePairApp st.minFreq bp words)
        refine ⟨le_trans (by simp) h.1, ?_, h.2.2⟩
        refine le_trans h.2.1 ?_
        simp only [List.length_append, List.length_cons, List.length_nil]
        omega

theorem mergeLoop_vocab (fuel : Nat) (st : TokSt) (words : List (Tok × Nat)) :
    st.vocab.length ≤ (mergeLoop fuel st words).1.vocab.length ∧
    (mergeLoop fuel st words).1.vocab.length ≤
      max st.vocab.length st.vocabSize ∧
    (mergeLoop fuel st words).1.vocabSize = st.vocabSize := by
  induction fuel generalizing st words with
  | zero => exact ⟨Nat.le_refl _, Nat.le_max_left _ _, rfl⟩
  | succ k ih =>
    simp only [mergeLoop]
    split
    · next hlt =>
      split
      · exact ⟨Nat.le_refl _, Nat.le_max_left _ _, rfl⟩
      · split
        · exact ⟨Nat.le_refl _, Nat.le_max_left _ _, rfl⟩
        · have ha := applyMerges_vocab st words (trainIterSel (getStatsApp words))
          have hl := ih (applyMerges st words (trainIterSel (getStatsApp words))).1
            (applyMerges st words (trainIterSel (getStatsApp words))).2
          refine ⟨le_trans ha.1 hl.1, ?_, hl.2.2.trans ha.2.2⟩
          refine le_trans hl.2.1 ?_
          rw [ha.2.2]
          have := ha.2.1
          omega
    · exact ⟨Nat.le_refl _, Nat.le_max_left _ _, rfl⟩

/-- Claim C5 (amended): across a run of `train` the vocabulary size never
decreases — neither in the whole-word pre-pass nor in the merge loop —
and the merge loop itself never pushes the size past the configured
target: its result is bounded by `max` of the size it started from and
`vocab_size`.  (The seeding in `__init__` and the whole-word pre-pass are
not capped, so the overall size can exceed `vocab_size`; see the
counterexample.) -/
theorem train_monotone_merge_capped (nfkc : Tok → Tok) (st : TokSt)
    (wfs : List (Tok × Nat)) (fuel : Nat) :
    st.vocab.length ≤ (trainApp nfkc st wfs fuel).1.vocab.length ∧
    (trainApp nfkc st wfs fuel).1.vocab.length ≤
      max (wfs.foldl (fun sw wf => phase1Step nfkc sw.1 sw.2 wf)
        (st, [])).1.vocab.length st.vocabSize := by
  have hp := phase1_vocab nfkc wfs (st, [])
  have hm := mergeLoop_vocab fuel
    (wfs.foldl (fun sw wf => phase1Step nfkc sw.1 sw.2 wf) (st, [])).1
    (wfs.foldl (fun sw wf => phase1Step nfkc sw.1 sw.2 wf) (st, [])).2
  constructor
  · exact le_trans hp.1 hm.1
  · show (mergeLoop fuel _ _).1.vocab.length ≤ _
    refine le_trans hm.2.1 ?_
    rw [hp.2]

theorem foldl_addToken_length (l : List Tok) (v : Vocab) :
    v.length ≤ (l.foldl addToken v).length := by
  induction l generalizing v with
  | nil => exact Nat.le_refl _
  | cons t rest ih =>
    simp only [List.foldl_cons]
    exact le_trans (addToken_length_le v t).1 (ih (addToken v t))

theorem mergeLoop_zero_target (fuel : Nat) (st : TokSt)
    (words : List (Tok × Nat)) (h : st.vocabSize = 0) :
    mergeLoop fuel st words = (st, words) := by
  cases fuel with
  | zero => rfl
  | succ k =>
    simp only [mergeLoop]
    rw [h, if_neg (Nat.not_lt_zero _)]

/-- Counterexample to claim C5 as stated: with configured target
`vocab_size = 0` the seeded vocabulary already exceeds the target, and
running `train` (empty counted corpus, merge loop exits at once) leaves
the size strictly above `vocab_size`. -/
theorem train_exceeds_target :
    (initStateApp 0 2).vocabSize <
      (trainApp id (initStateApp 0 2) [] 5).1.vocab.length := by
  have hvs : (initStateApp 0 2).vocabSize = 0 := rfl
  have hvoc : (initStateApp 0 2).vocab = initVocabApp := by
    rw [initStateApp]
  have hrun : (trainApp id (initStateApp 0 2) [] 5).1 = initStateApp 0 2 := by
    show (mergeLoop 5 (initStateApp 0 2) []).1 = initStateApp 0 2
    rw [mergeLoop_zero_target 5 (initStateApp 0 2) [] hvs]
  rw [hrun, hvs, hvoc]
  have h256 : ((List.range 256).map (fun i => (([i] : Tok), i))).length ≤
      initVocabApp.length := foldl_addToken_length _ _
  simp only [List.length_map, List.length_range] at h256
  omega

/-! Structural lemmas about `runMap`, `pstrip`, `replaceAll` and the dot
collapse, used to settle C6 and C7.  A string is processed one maximal
run at a time, so most proofs are strong inductions on the length. -/

theorem runMap_of_no_class (p : Nat → Bool) (g : Nat → Tok) (s : Tok)
    (h : ∀ c ∈ s, p c = false) : runMap p g s = s := by
  induction s with
  | nil => rfl
  | cons c rest ih =>
    rw [runMap_cons, if_neg (by simp [h c (List.mem_cons_self c rest)]),
      ih (fun d hd => h d (List.mem_cons_of_mem c hd))]

theorem mem_runMap (p : Nat → Bool) (g : Nat → Tok) (s : Tok) (c : Nat)
    (h : c ∈ runMap p g s) : (c ∈ s ∧ p c = false) ∨ ∃ n, c ∈ g n := by
  have H : ∀ (n : Nat) (s : Tok), s.length ≤ n → c ∈ runMap p g s →
      (c ∈ s ∧ p c = false) ∨ ∃ n, c ∈ g n := by
    intro n
    induction n with
    | zero =>
      intro s hs hc
      cases s with
      | nil => simp [runMap_nil] at hc
      | cons a r => simp at hs
    | succ k ih =>
      intro s hs hc
      cases s with
      | nil => simp [runMap_nil] at hc
      | cons a r =>
        rw [runMap_cons] at hc
        simp only [List.length_cons] at hs
        by_cases hp : p a
        · rw [if_pos hp] at hc
          rcases List.mem_append.mp hc with h1 | h1
          · exact Or.inr ⟨_, h1⟩
          · rcases ih (dropLeading p r)
              (le_trans ((List.dropWhile_sublist _).length_le) (by omega)) h1
              with ⟨h2, h3⟩ | h2
            · exact Or.inl ⟨List.mem_cons_of_mem a ((List.dropWhile_sublist _).mem h2), h3⟩
            · exact Or.inr h2
        · rw [if_neg hp] at hc
          rcases List.mem_cons.mp hc with h1 | h1
          · exact Or.inl ⟨h1 ▸ List.mem_cons_self a r, h1 ▸ (by simpa using hp)⟩
          · rcases ih r (by omega) h1 with ⟨h2, h3⟩ | h2
            · exact Or.inl ⟨List.mem_cons_of_mem a h2, h3⟩
            · exact Or.inr h2
  exact H s.length s (Nat.le_refl _) h

theorem runMap_ne_nil (p : Nat → Bool) (g : Nat → Tok) (s : Tok)
    (hg : ∀ n, 1 ≤ n → g n ≠ []) (hs : s ≠ []) : runMap p g s ≠ [] := by
  cases s with
  | nil => exact absurd rfl hs
  | cons c rest =>
    rw [runMap_cons]
    by_cases hp : p c
    · rw [if_pos hp]
      intro hcontra
      exact hg _ (by omega) (List.append_eq_nil.mp hcontra).1
    · rw [if_neg hp]
      simp

theorem runMap_head_of_not (p : Nat → Bool) (g : Nat → Tok) (s : Tok)
    (h : s.head?.all (fun c => ! p c) = true) :
    (runMap p g s).head? = s.head? := by
  cases s with
  | nil => rfl
  | cons c rest =>
    simp only [List.head?_cons, Option.all_some, Bool.not_eq_true'] at h
    rw [runMap_cons, if_neg (by simp [h])]
    rfl

theorem runMap_length_le (p : Nat → Bool) (g : Nat → Tok) (s : Tok)
    (hg : ∀ n, 1 ≤ n → (g n).length ≤ n) :
    (runMap p g s).length ≤ s.length := by
  have H : ∀ (n : Nat) (s : Tok), s.length ≤ n →
      (runMap p g s).length ≤ s.length := by
    intro n
    induction n with
    | zero =>
      intro s hs
      cases s with
      | nil => simp [runMap_nil]
      | cons a r => simp at hs
    | succ k ih =>
      intro s hs
      cases s with
      | nil => simp [runMap_nil]
      | cons a r =>
        rw [runMap_cons]
        simp only [List.length_cons] at hs
        by_cases hp : p a
        · rw [if_pos hp]
          have h1 := hg (1 + (r.takeWhile p).length) (by omega)
          have h2 := ih (dropLeading p r)
            (le_trans ((List.dropWhile_sublist _).length_le) (by omega))
          have h3 : (dropLeading p r).length + (r.takeWhile p).length = r.length := by
            have := congrArg List.length (List.takeWhile_append_dropWhile (p := p) (l := r))
            simp only [List.length_append] at this
            unfold dropLeading
            omega
          simp only [List.length_append, List.length_cons]
          omega
        · rw [if_neg hp]
          simp only [List.length_cons]
          have := ih r (by omega)
          omega
  exact H s.length s (Nat.le_refl _)

theorem noTwoAdj_cons2 (q : Nat → Bool) (a b : Nat) (rest : Tok) :
    noTwoAdj q (a :: b :: rest) = ((! (q a && q b)) && noTwoAdj q (b :: rest)) :=
  rfl

theorem noTwoAdj_tail (q : Nat → Bool) (a : Nat) (s : Tok)
    (h : noTwoAdj q (a :: s) = true) : noTwoAdj q s = true := by
  cases s with
  | nil => rfl
  | cons b rest =>
    rw [noTwoAdj_cons2] at h
    exact (Bool.and_eq_true _ _ ▸ h).2

theorem noTwoAdj_head (q : Nat → Bool) (a b : Nat) (rest : Tok)
    (h : noTwoAdj q (a :: b :: rest) = true) (ha : q a = true) :
    q b = false := by
  rw [noTwoAdj_cons2] at h
  have h1 := (Bool.and_eq_true _ _ ▸ h).1
  cases hb : q b
  · rfl
  · rw [ha, hb] at h1
    simp at h1

theorem noTwoAdj_suffix (q : Nat → Bool) (u s : Tok) (hs : u <:+ s)
    (h : noTwoAdj q s = true) : noTwoAdj q u = true := by
  obtain ⟨t, ht⟩ := hs
  induction t generalizing s with
  | nil => simpa [← ht] using h
  | cons a t' ih =>
    cases s with
    | nil => simp at ht
    | cons b s' =>
      have h1 : t' ++ u = s' := (List.cons.injEq a _ b s' ▸ ht).2
      exact ih s' (noTwoAdj_tail q b s' h) h1

theorem noTwoAdj_prefix (q : Nat → Bool) (u v : Tok)
    (h : noTwoAdj q (u ++ v) = true) : noTwoAdj q u = true := by
  induction u with
  | nil => rfl
  | cons a u' ih =>
    cases u' with
    | nil => rfl
    | cons b u'' =>
      have h0 : noTwoAdj q (a :: b :: (u'' ++ v)) = true := by simpa using h
      have h1 := (Bool.and_eq_true _ _ ▸ (noTwoAdj_cons2 q a b (u'' ++ v) ▸ h0)).1
      have h2 : noTwoAdj q (b :: u'') = true := ih (by simpa using noTwoAdj_tail q a _ h0)
      rw [noTwoAdj_cons2]
      rw [h1, h2]
      rfl

theorem noTwoAdj_append_left (q : Nat → Bool) (u v : Tok)
    (hu : ∀ c ∈ u, q c = false) (hv : noTwoAdj q v = true) :
    noTwoAdj q (u ++ v) = true := by
  induction u with
  | nil => simpa using hv
  | cons a u' ih =>
    have ha : q a = false := hu a (List.mem_cons_self a u')
    have htl : noTwoAdj q (u' ++ v) = true :=
      ih (fun c hc => hu c (List.mem_cons_of_mem a hc))
    cases h2 : u' ++ v with
    | nil =>
      rw [List.cons_append, h2]
      rfl
    | cons b w =>
      rw [List.cons_append, h2, noTwoAdj_cons2, ← h2, htl, ha]
      rfl

/-- Fixed point of a constant-run collapse: every class character is the
replacement character and no two are adjacent. -/
theorem runMap_const_fix (p : Nat → Bool) (r : Nat) (s : Tok)
    (hall : ∀ c ∈ s, p c = true → c = r)
    (hadj : noTwoAdj p s = true) : runMap p (fun _ => [r]) s = s := by
  induction s with
  | nil => rfl
  | cons c rest ih =>
    rw [runMap_cons]
    by_cases hp : p c
    · rw [if_pos hp]
      have hcr : c = r := hall c (List.mem_cons_self c rest) hp
      have hrest : rest.head?.all (fun d => ! p d) = true := by
        cases rest with
        | nil => rfl
        | cons b rest2 =>
          have hb := noTwoAdj_head p c b rest2 hadj hp
          simp [hb]
      have htw : rest.takeWhile p = [] := by
        cases rest with
        | nil => rfl
        | cons b rest2 =>
          simp only [List.head?_cons, Option.all_some, Bool.not_eq_true'] at hrest
          simp [List.takeWhile_cons, hrest]
      have hdw : dropLeading p rest = rest := by
        cases rest with
        | nil => rfl
        | cons b rest2 =>
          simp only [List.head?_cons, Option.all_some, Bool.not_eq_true'] at hrest
          unfold dropLeading
          simp [List.dropWhile_cons, hrest]
      simp only [htw, hdw, List.length_nil]
      rw [ih (fun d hd hpd => hall d (List.mem_cons_of_mem c hd) hpd)
        (noTwoAdj_tail p c rest hadj)]
      simp [hcr]
    · rw [if_neg hp]
      rw [ih (fun d hd hpd => hall d (List.mem_cons_of_mem c hd) hpd)
        (noTwoAdj_tail p c rest hadj)]

/-- Output of a constant-run collapse: class characters are the
replacement and never adjacent. -/
theorem runMap_const_out (p : Nat → Bool) (r : Nat) (s : Tok) :
    (∀ c ∈ runMap p (fun _ => [r]) s, p c = true → c = r) ∧
    noTwoAdj p (runMap p (fun _ => [r]) s) = true := by
  constructor
  · intro c hc hpc
    rcases mem_runMap p _ s c hc with ⟨_, h2⟩ | ⟨n, hn⟩
    · exact absurd hpc (by simp [h2])
    · simpa using hn
  · have H : ∀ (n : Nat) (s : Tok), s.length ≤ n →
        noTwoAdj p (runMap p (fun _ => [r]) s) = true := by
      intro n
      induction n with
      | zero =>
        intro s hs
        cases s with
        | nil => rfl
        | cons a u => simp at hs
      | succ k ih =>
        intro s hs
        cases s with
        | nil => rfl
        | cons c rest =>
          rw [runMap_cons]
          simp only [List.length_cons] at hs
          by_cases hp : p c
          · rw [if_pos hp]
            have hR := ih (dropLeading p rest)
              (le_trans ((List.dropWhile_sublist _).length_le) (by omega))
            have hdhd : (dropLeading p rest).head?.all (fun d => ! p d) = true := by
              unfold dropLeading
              cases h : rest.dropWhile p with
              | nil => rfl
              | cons d w =>
                have h2 := List.head?_dropWhile_not p rest
                rw [h] at h2
                simpa using h2
            have hRhd : (runMap p (fun _ => [r]) (dropLeading p rest)).head? =
                (dropLeading p rest).head? :=
              runMap_head_of_not p _ _ hdhd
            cases hcase : runMap p (fun _ => [r]) (dropLeading p rest) with
            | nil => rfl
            | cons d w =>
              have hd : p d = false := by
                rw [hcase] at hRhd
                cases h2 : (dropLeading p rest).head? with
                | none => rw [h2] at hRhd; simp at hRhd
                | some e =>
                  rw [h2] at hRhd
                  simp only [List.head?_cons, Option.some_inj] at hRhd
                  rw [h2] at hdhd
                  simp only [Option.all_some, Bool.not_eq_true'] at hdhd
                  rw [hRhd]
                  exact hdhd
              show noTwoAdj p (r :: d :: w) = true
              rw [noTwoAdj_cons2, ← hcase, hR, hd]
              simp
          · rw [if_neg hp]
            have hR := ih rest (by omega)
            cases hcase : runMap p (fun _ => [r]) rest with
            | nil => rfl
            | cons d w =>
              show noTwoAdj p (c :: d :: w) = true
              rw [noTwoAdj_cons2, ← hcase, hR]
              simp [hp]
    exact H s.length s (Nat.le_refl _)

theorem hdAll_of_all (q : Nat → Bool) (s : Tok) (h : ∀ c ∈ s, q c = true) :
    hdAll q s = true := by
  cases s with
  | nil => rfl
  | cons c rest =>
    unfold hdAll
    simpa using h c (List.mem_cons_self c rest)

theorem mem_of_getLast?_eq (s : Tok) (c : Nat) (h : s.getLast? = some c) :
    c ∈ s := by
  obtain ⟨hne, hc⟩ := List.mem_getLast?_eq_getLast (l := s) (x := c) h
  rw [hc]
  exact List.getLast_mem hne

theorem lastAll_of_all (q : Nat → Bool) (s : Tok) (h : ∀ c ∈ s, q c = true) :
    lastAll q s = true := by
  unfold lastAll
  cases hc : s.getLast? with
  | none => rfl
  | some c =>
    simpa using h c (mem_of_getLast?_eq s c hc)

theorem getLast?_append_right (u v : Tok) (hv : v ≠ []) :
    (u ++ v).getLast? = v.getLast? :=
  List.getLast?_append_of_ne_nil u hv

theorem lastAll_suffix (q : Nat → Bool) (u s : Tok) (hs : u <:+ s)
    (hu : u ≠ []) (h : lastAll q s = true) : lastAll q u = true := by
  obtain ⟨t, ht⟩ := hs
  subst ht
  unfold lastAll at h ⊢
  rw [getLast?_append_right t u hu] at h
  exact h

theorem hdAll_runMap (p : Nat → Bool) (g : Nat → Tok) (q : Nat → Bool)
    (s : Tok)
    (hg : ∀ n, 1 ≤ n → g n ≠ [] ∧ hdAll q (g n) = true)
    (hs : hdAll q s = true) : hdAll q (runMap p g s) = true := by
  cases s with
  | nil => rfl
  | cons c rest =>
    rw [runMap_cons]
    by_cases hp : p c
    · rw [if_pos hp]
      obtain ⟨hne, hh⟩ := hg (1 + (rest.takeWhile p).length) (by omega)
      unfold hdAll at hh ⊢
      cases hgn : g (1 + (rest.takeWhile p).length) with
      | nil => exact absurd hgn hne
      | cons x xs =>
        rw [hgn] at hh
        simpa using hh
    · rw [if_neg hp]
      unfold hdAll at hs ⊢
      simpa using hs

theorem lastAll_runMap (p : Nat → Bool) (g : Nat → Tok) (q : Nat → Bool)
    (s : Tok)
    (hg : ∀ n, 1 ≤ n → g n ≠ [] ∧ lastAll q (g n) = true)
    (hs : lastAll q s = true) : lastAll q (runMap p g s) = true := by
  have H : ∀ (n : Nat) (s : Tok), s.length ≤ n → lastAll q s = true →
      lastAll q (runMap p g s) = true := by
    intro n
    induction n with
    | zero =>
      intro s hn hils
      cases s with
      | nil => rfl
      | cons a u => simp at hn
    | succ k ih =>
      intro s hn hils
      cases s with
      | nil => rfl
      | cons c rest =>
        rw [runMap_cons]
        simp only [List.length_cons] at hn
        by_cases hp : p c
        · rw [if_pos hp]
          have hulen : (dropLeading p rest).length ≤ k :=
            le_trans ((List.dropWhile_sublist _).length_le) (by omega)
          have husuf : dropLeading p rest <:+ rest := List.dropWhile_suffix p
          cases hu : dropLeading p rest with
          | nil =>
            rw [runMap_nil]
            unfold lastAll
            rw [List.append_nil]
            exact (hg (1 + (rest.takeWhile p).length) (by omega)).2
          | cons d w =>
            have hRne : runMap p g (d :: w) ≠ [] :=
              runMap_ne_nil p g _ (fun n hn1 => (hg n hn1).1) (by simp)
            unfold lastAll
            rw [getLast?_append_right _ _ hRne]
            have hlrest : lastAll q rest = true := by
              refine lastAll_suffix q rest (c :: rest) ⟨[c], rfl⟩ ?_ hils
              intro hc0
              rw [hc0] at hu
              simp [dropLeading] at hu
            have hlu : lastAll q (d :: w) = true := by
              refine lastAll_suffix q (d :: w) rest ?_ (by simp) hlrest
              rw [← hu]
              exact husuf
            exact ih (d :: w) (hu ▸ hulen) hlu
        · rw [if_neg hp]
          cases hrest : rest with
          | nil =>
            rw [runMap_nil]
            rw [hrest] at hils
            exact hils
          | cons b rest2 =>
            have hRne : runMap p g (b :: rest2) ≠ [] :=
              runMap_ne_nil p g _ (fun n hn1 => (hg n hn1).1) (by simp)
            unfold lastAll
            rw [show (c :: runMap p g (b :: rest2)) = [c] ++ runMap p g (b :: rest2)
              from rfl, getLast?_append_right _ _ hRne]
            have hlr : lastAll q (b :: rest2) = true := by
              refine lastAll_suffix q (b :: rest2) (c :: rest) ?_ (by simp) hils
              rw [← hrest]
              exact ⟨[c], rfl⟩
            exact ih (b :: rest2) (by rw [hrest] at hn; simpa using Nat.le_of_succ_le_succ hn) hlr
  exact H s.length s (Nat.le_refl _) hs

theorem noTwoAdj_runMap_other (p : Nat → Bool) (g : Nat → Tok)
    (q : Nat → Bool) (s : Tok)
    (hg : ∀ n, 1 ≤ n → g n ≠ [] ∧ ∀ c ∈ g n, q c = false)
    (hs : noTwoAdj q s = true) : noTwoAdj q (runMap p g s) = true := by
  have H : ∀ (n : Nat) (s : Tok), s.length ≤ n → noTwoAdj q s = true →
      noTwoAdj q (runMap p g s) = true := by
    intro n
    induction n with
    | zero =>
      intro s hn hadj
      cases s with
      | nil => rfl
      | cons a u => simp at hn
    | succ k ih =>
      intro s hn hadj
      cases s with
      | nil => rfl
      | cons c rest =>
        rw [runMap_cons]
        simp only [List.length_cons] at hn
        by_cases hp : p c
        · rw [if_pos hp]
          refine noTwoAdj_append_left q _ _ (hg _ (by omega)).2 ?_
          refine ih (dropLeading p rest)
            (le_trans ((List.dropWhile_sublist _).length_le) (by omega)) ?_
          exact noTwoAdj_suffix q _ rest (List.dropWhile_suffix p)
            (noTwoAdj_tail q c rest hadj)
        · rw [if_neg hp]
          have hR := ih rest (by omega) (noTwoAdj_tail q c rest hadj)
          cases hcase : runMap p g rest with
          | nil => rfl
          | cons d w =>
            rw [noTwoAdj_cons2, ← hcase, hR]
            have hd : (! (q c && q d)) = true := by
              cases rest with
              | nil => simp [runMap_nil] at hcase
              | cons b rest2 =>
                by_cases hpb : p b
                · rw [runMap_cons, if_pos hpb] at hcase
                  obtain ⟨hne, hq⟩ := hg (1 + (rest2.takeWhile p).length) (by omega)
                  have hdg : d ∈ g (1 + (rest2.takeWhile p).length) := by
                    cases hgn : g (1 + (rest2.takeWhile p).length) with
                    | nil => exact absurd hgn hne
                    | cons x xs =>
                      rw [hgn] at hcase
                      have hxd : x = d := by
                        have := congrArg List.head? hcase
                        simpa using this
                      rw [← hxd]
                      exact List.mem_cons_self x xs
                  have := hq d hdg
                  simp [this]
                · rw [runMap_cons, if_neg hpb] at hcase
                  have hbd : b = d := by
                    have := congrArg List.head? hcase
                    simpa using this
                  have h1 := (Bool.and_eq_true _ _ ▸
                    (noTwoAdj_cons2 q c b rest2 ▸ hadj)).1
                  rw [← hbd]
                  exact h1
            rw [hd]
            rfl
  exact H s.length s (Nat.le_refl _) hs

theorem dropTrailing_front (p : Nat → Bool) (s : Tok) :
    dropTrailing p s <+: s := by
  induction s with
  | nil => exact List.prefix_refl []
  | cons c r ih =>
    unfold dropTrailing
    cases hcase : dropTrailing p r with
    | nil =>
      by_cases hpc : p c
      · rw [if_pos hpc]
        exact List.nil_prefix
      · rw [if_neg hpc]
        exact ⟨r, rfl⟩
    | cons x xs =>
      show c :: x :: xs <+: c :: r
      rw [← hcase]
      exact (List.prefix_cons_inj c).mpr ih

/-! Fixed-point lemmas for the strip, map and replacement steps of the
normalizer, used to settle the idempotence claim. -/

theorem hdAll_dropLeading (p : Nat → Bool) (s : Tok) :
    hdAll (fun c => ! p c) (dropLeading p s) = true := by
  induction s with
  | nil => rfl
  | cons c r ih =>
    unfold dropLeading at ih ⊢
    rw [List.dropWhile_cons]
    by_cases hp : p c
    · rw [if_pos hp]
      exact ih
    · rw [if_neg hp]
      simp [hdAll, hp]

theorem lastAll_dropTrailing (p : Nat → Bool) (s : Tok) :
    lastAll (fun c => ! p c) (dropTrailing p s) = true := by
  induction s with
  | nil => rfl
  | cons c r ih =>
    unfold dropTrailing
    cases hcase : dropTrailing p r with
    | nil =>
      by_cases hp : p c
      · rw [if_pos hp]
        rfl
      · rw [if_neg hp]
        simp [lastAll, hp]
    | cons x xs =>
      show lastAll (fun c => ! p c) (c :: x :: xs) = true
      rw [hcase] at ih
      unfold lastAll at ih ⊢
      rw [show (c :: x :: xs) = [c] ++ (x :: xs) from rfl,
        getLast?_append_right [c] (x :: xs) (by simp)]
      exact ih

theorem dropLeading_fix (p : Nat → Bool) (s : Tok)
    (h : hdAll (fun c => ! p c) s = true) : dropLeading p s = s := by
  cases s with
  | nil => rfl
  | cons c r =>
    unfold hdAll at h
    simp only [List.head?_cons, Option.all_some, Bool.not_eq_true'] at h
    unfold dropLeading
    rw [List.dropWhile_cons, if_neg (by simp [h])]

theorem dropTrailing_fix (p : Nat → Bool) (s : Tok)
    (h : lastAll (fun c => ! p c) s = true) : dropTrailing p s = s := by
  induction s with
  | nil => rfl
  | cons c r ih =>
    cases hr : r with
    | nil =>
      unfold lastAll at h
      rw [hr] at h
      simp only [List.getLast?_singleton, Option.all_some, Bool.not_eq_true'] at h
      unfold dropTrailing
      rw [show dropTrailing p [] = [] from rfl]
      simp [h]
    | cons b r2 =>
      have hrt : lastAll (fun c => ! p c) r = true := by
        refine lastAll_suffix _ r (c :: r) ⟨[c], rfl⟩ ?_ h
        rw [hr]
        simp
      have hdr := ih hrt
      rw [hr] at hdr
      unfold dropTrailing
      rw [hdr]

theorem pstrip_fix (s : Tok)
    (h1 : hdAll (fun c => ! isSpaceCp c) s = true)
    (h2 : lastAll (fun c => ! isSpaceCp c) s = true) : pstrip s = s := by
  unfold pstrip
  rw [dropTrailing_fix _ _ h2, dropLeading_fix _ _ h1]

theorem hdAll_pstrip (s : Tok) :
    hdAll (fun c => ! isSpaceCp c) (pstrip s) = true :=
  hdAll_dropLeading isSpaceCp (dropTrailing isSpaceCp s)

theorem lastAll_pstrip (s : Tok) :
    lastAll (fun c => ! isSpaceCp c) (pstrip s) = true := by
  unfold pstrip
  cases hcase : dropLeading isSpaceCp (dropTrailing isSpaceCp s) with
  | nil => rfl
  | cons x xs =>
    refine lastAll_suffix _ (x :: xs) (dropTrailing isSpaceCp s) ?_ (by simp) ?_
    · rw [← hcase]
      exact List.dropWhile_suffix isSpaceCp
    · exact lastAll_dropTrailing isSpaceCp s

theorem mem_dropTrailing (p : Nat → Bool) (s : Tok) (c : Nat)
    (h : c ∈ dropTrailing p s) : c ∈ s :=
  (dropTrailing_front p s).sublist.subset h

theorem mem_pstrip (s : Tok) (c : Nat) (h : c ∈ pstrip s) : c ∈ s :=
  mem_dropTrailing isSpaceCp s c
    ((List.dropWhile_sublist isSpaceCp).subset h)

theorem noTwoAdj_pstrip (q : Nat → Bool) (s : Tok)
    (h : noTwoAdj q s = true) : noTwoAdj q (pstrip s) = true := by
  unfold pstrip
  have hdt : noTwoAdj q (dropTrailing isSpaceCp s) = true := by
    obtain ⟨t, ht⟩ := dropTrailing_front isSpaceCp s
    refine noTwoAdj_prefix q _ t ?_
    rw [ht]
    exact h
  exact noTwoAdj_suffix q _ _ (List.dropWhile_suffix isSpaceCp) hdt

theorem map_fix (f : Nat → Nat) (s : Tok) (h : ∀ c ∈ s, f c = c) :
    s.map f = s := by
  induction s with
  | nil => rfl
  | cons c r ih =>
    rw [List.map_cons, h c (List.mem_cons_self c r),
      ih (fun d hd => h d (List.mem_cons_of_mem c hd))]

theorem hdAll_map (f : Nat → Nat) (q : Nat → Bool) (s : Tok)
    (hf : ∀ c, q c = true → q (f c) = true) (h : hdAll q s = true) :
    hdAll q (s.map f) = true := by
  cases s with
  | nil => rfl
  | cons c r =>
    unfold hdAll at h ⊢
    simp only [List.head?_cons, Option.all_some] at h
    simp only [List.map_cons, List.head?_cons, Option.all_some]
    exact hf c h

theorem lastAll_map (f : Nat → Nat) (q : Nat → Bool) (s : Tok)
    (hf : ∀ c, q c = true → q (f c) = true) (h : lastAll q s = true) :
    lastAll q (s.map f) = true := by
  unfold lastAll at h ⊢
  rw [List.getLast?_map]
  cases hcase : s.getLast? with
  | none => rfl
  | some c =>
    rw [hcase] at h
    simp only [Option.map_some', Option.all_some]
    exact hf c (by simpa using h)

theorem noTwoAdj_map (f : Nat → Nat) (q : Nat → Bool) (s : Tok)
    (hf : ∀ c, q (f c) = q c) (h : noTwoAdj q s = true) :
    noTwoAdj q (s.map f) = true := by
  induction s with
  | nil => rfl
  | cons a r ih =>
    cases r with
    | nil => rfl
    | cons b r2 =>
      rw [List.map_cons, List.map_cons, noTwoAdj_cons2]
      have h1 := (Bool.and_eq_true _ _ ▸ (noTwoAdj_cons2 q a b r2 ▸ h)).1
      have h2 := (Bool.and_eq_true _ _ ▸ (noTwoAdj_cons2 q a b r2 ▸ h)).2
      rw [← List.map_cons]
      rw [ih h2, hf a, hf b, h1]
      rfl

/-! One-pass replacement fixed points and the dot-run shape invariant. -/

theorem replaceAll_of_not_substr (k : Nat) (ks val : Tok) (s : Tok)
    (h : isSubstrOf (k :: ks) s = false) : replaceAll k ks val s = s := by
  induction s with
  | nil => rfl
  | cons c rest ih =>
    rw [show isSubstrOf (k :: ks) (c :: rest) =
      ((k :: ks).isPrefixOf (c :: rest) || isSubstrOf (k :: ks) rest)
      from rfl] at h
    simp only [Bool.or_eq_false_iff] at h
    have hpre := h.1
    have hsub := h.2
    rw [replaceAll_cons]
    have hcond : (decide (c = k) && ks.isPrefixOf rest) = false := by
      simp only [List.isPrefixOf] at hpre
      by_cases hck : c = k
      · subst hck
        simp only [beq_self_eq_true, Bool.true_and] at hpre
        simp [hpre]
      · simp [hck]
    rw [if_neg (by simp [hcond]), ih hsub]

theorem applyMap_fix (s : Tok) (kv : Tok × Tok)
    (h : isSubstrOf kv.1 s = false) : applyMap s kv = s := by
  unfold applyMap
  cases hk : kv.1 with
  | nil => rfl
  | cons k ks => exact replaceAll_of_not_substr k ks kv.2 s (hk ▸ h)

theorem foldl_applyMap_fix (l : List (Tok × Tok)) (s : Tok)
    (h : ∀ kv ∈ l, isSubstrOf kv.1 s = false) : l.foldl applyMap s = s := by
  induction l with
  | nil => rfl
  | cons kv rest ih =>
    rw [List.foldl_cons, applyMap_fix s kv (h kv (List.mem_cons_self kv rest))]
    exact ih (fun kv2 h2 => h kv2 (List.mem_cons_of_mem kv h2))

theorem replMappings_fix (s : Tok)
    (h : ∀ kv ∈ charMappings, isSubstrOf kv.1 s = false) :
    replMappings s = s := foldl_applyMap_fix charMappings s h

theorem dotRuns3F_irrel (f1 f2 : Nat) (s : Tok)
    (h1 : s.length ≤ f1) (h2 : s.length ≤ f2) :
    dotRuns3F f1 s = dotRuns3F f2 s := by
  induction f1 generalizing f2 s with
  | zero =>
    cases s with
    | nil => cases f2 <;> rfl
    | cons c r => simp at h1
  | succ k ih =>
    cases s with
    | nil => cases f2 <;> rfl
    | cons c r =>
      cases f2 with
      | zero => simp at h2
      | succ k2 =>
        simp only [dotRuns3F]
        simp only [List.length_cons] at h1 h2
        by_cases hp : isDotCp c
        · rw [if_pos hp, if_pos hp,
            ih k2 (dropLeading isDotCp r)
              (le_trans ((List.dropWhile_sublist _).length_le) (by omega))
              (le_trans ((List.dropWhile_sublist _).length_le) (by omega))]
        · rw [if_neg hp, if_neg hp, ih k2 r (by omega) (by omega)]

theorem dotRuns3_nil : dotRuns3 [] = true := rfl

theorem dotRuns3_cons (c : Nat) (rest : Tok) :
    dotRuns3 (c :: rest) =
      if isDotCp c then
        ((1 + (rest.takeWhile isDotCp).length == 1) ||
          (1 + (rest.takeWhile isDotCp).length == 3)) &&
          dotRuns3 (dropLeading isDotCp rest)
      else dotRuns3 rest := by
  show dotRuns3F (rest.length + 1) (c :: rest) = _
  simp only [dotRuns3F]
  by_cases hp : isDotCp c
  · rw [if_pos hp, if_pos hp,
      dotRuns3F_irrel rest.length (dropLeading isDotCp rest).length
        (dropLeading isDotCp rest) (dropLeading_length_le isDotCp rest)
        (Nat.le_refl _)]
    rfl
  · rw [if_neg hp, if_neg hp]
    rfl

theorem dotsCollapse_fix (s : Tok) (h : dotRuns3 s = true) :
    dotsCollapse s = s := by
  have H : ∀ (n : Nat) (s : Tok), s.length ≤ n → dotRuns3 s = true →
      dotsCollapse s = s := by
    intro n
    induction n with
    | zero =>
      intro s hn _
      cases s with
      | nil => rfl
      | cons a u => simp at hn
    | succ k ih =>
      intro s hn hruns
      cases s with
      | nil => rfl
      | cons c rest =>
        unfold dotsCollapse
        rw [runMap_cons]
        simp only [List.length_cons] at hn
        by_cases hp : isDotCp c
        · rw [if_pos hp]
          rw [dotRuns3_cons, if_pos hp] at hruns
          have h1 := (Bool.and_eq_true _ _ ▸ hruns).1
          have h2 := (Bool.and_eq_true _ _ ▸ hruns).2
          have hc : c = 0x2E := by
            unfold isDotCp at hp
            simpa using hp
          have htw : rest.takeWhile isDotCp =
              List.replicate (rest.takeWhile isDotCp).length 0x2E := by
            refine List.eq_replicate_of_mem ?_
            intro b hb
            have := List.mem_takeWhile_imp hb
            unfold isDotCp at this
            simpa using this
          have hrec : runMap isDotCp
              (fun n => if 2 ≤ n then [0x2E, 0x2E, 0x2E] else [0x2E])
              (dropLeading isDotCp rest) = dropLeading isDotCp rest :=
            ih (dropLeading isDotCp rest)
              (le_trans (dropLeading_length_le isDotCp rest) (by omega)) h2
          have hgr : (if 2 ≤ 1 + (rest.takeWhile isDotCp).length
              then [0x2E, 0x2E, 0x2E] else [0x2E]) =
              c :: rest.takeWhile isDotCp := by
            rcases Bool.or_eq_true _ _ ▸ h1 with h11 | h13
            · have : (rest.takeWhile isDotCp).length = 0 := by
                have h11e : 1 + (rest.takeWhile isDotCp).length = 1 := by
                  simpa using h11
                omega
              rw [if_neg (by omega), hc,
                List.length_eq_zero.mp this]
            · have : (rest.takeWhile isDotCp).length = 2 := by
                have h13e : 1 + (rest.takeWhile isDotCp).length = 3 := by
                  simpa using h13
                omega
              rw [if_pos (by omega), hc, htw, this]
              rfl
          rw [show runMap isDotCp
              (fun n => if 2 ≤ n then [0x2E, 0x2E, 0x2E] else [0x2E])
              (dropLeading isDotCp rest) =
              dotsCollapse (dropLeading isDotCp rest) from rfl] at hrec ⊢
          rw [hgr, hrec, List.cons_append]
          unfold dropLeading
          rw [List.takeWhile_append_dropWhile _ _]
        · rw [if_neg hp]
          rw [dotRuns3_cons, if_neg hp] at hruns
          have hrec := ih rest (by omega) hruns
          unfold dotsCollapse at hrec
          rw [hrec]
  exact H s.length s (Nat.le_refl _) h

theorem dotRuns3_dotrun_append (m : Nat) (R : Tok)
    (hm : m = 1 ∨ m = 3) (hR : hdAll (fun c => ! isDotCp c) R = true)
    (hruns : dotRuns3 R = true) :
    dotRuns3 (List.replicate m 0x2E ++ R) = true := by
  have htw : R.takeWhile isDotCp = [] := by
    cases R with
    | nil => rfl
    | cons d w =>
      unfold hdAll at hR
      simp only [List.head?_cons, Option.all_some, Bool.not_eq_true'] at hR
      simp [List.takeWhile_cons, hR]
  have hdw : dropLeading isDotCp R = R := dropLeading_fix isDotCp R hR
  rcases hm with hm | hm
  · subst hm
    rw [show List.replicate 1 0x2E ++ R = 0x2E :: R from rfl,
      dotRuns3_cons, if_pos (by decide), htw, hdw]
    simp [hruns]
  · subst hm
    rw [show List.replicate 3 0x2E ++ R = 0x2E :: (0x2E :: 0x2E :: R) from rfl,
      dotRuns3_cons, if_pos (by decide)]
    have htw3 : (0x2E :: 0x2E :: R).takeWhile isDotCp = 0x2E :: 0x2E :: [] := by
      rw [List.takeWhile_cons, if_pos (by decide),
        List.takeWhile_cons, if_pos (by decide), htw]
    have hdw3 : dropLeading isDotCp (0x2E :: 0x2E :: R) = R := by
      unfold dropLeading
      rw [List.dropWhile_cons, if_pos (by decide),
        List.dropWhile_cons, if_pos (by decide)]
      exact hdw
    rw [htw3, hdw3]
    simp [hruns]

theorem dotRuns3_dotsCollapse (s : Tok) : dotRuns3 (dotsCollapse s) = true := by
  have H : ∀ (n : Nat) (s : Tok), s.length ≤ n →
      dotRuns3 (dotsCollapse s) = true := by
    intro n
    induction n with
    | zero =>
      intro s hn
      cases s with
      | nil => rfl
      | cons a u => simp at hn
    | succ k ih =>
      intro s hn
      cases s with
      | nil => rfl
      | cons c rest =>
        unfold dotsCollapse
        rw [runMap_cons]
        simp only [List.length_cons] at hn
        by_cases hp : isDotCp c
        · rw [if_pos hp]
          have hhd : (dropLeading isDotCp rest).head?.all
              (fun c => ! isDotCp c) = true := hdAll_dropLeading isDotCp rest
          have hRhd : hdAll (fun c => ! isDotCp c)
              (dotsCollapse (dropLeading isDotCp rest)) = true := by
            unfold hdAll
            unfold dotsCollapse
            rw [runMap_head_of_not isDotCp _ _ hhd]
            exact hhd
          have hRruns := ih (dropLeading isDotCp rest)
            (le_trans (dropLeading_length_le isDotCp rest) (by omega))
          rw [show runMap isDotCp
              (fun n => if 2 ≤ n then [0x2E, 0x2E, 0x2E] else [0x2E])
              (dropLeading isDotCp rest) =
              dotsCollapse (dropLeading isDotCp rest) from rfl]
          by_cases h2 : 2 ≤ 1 + (rest.takeWhile isDotCp).length
          · rw [if_pos h2]
            exact dotRuns3_dotrun_append 3 _ (Or.inr rfl) hRhd hRruns
          · rw [if_neg h2]
            exact dotRuns3_dotrun_append 1 _ (Or.inl rfl) hRhd hRruns
        · rw [if_neg hp]
          rw [dotRuns3_cons, if_neg hp]
          have := ih rest (by omega)
          unfold dotsCollapse at this
          exact this
  exact H s.length s (Nat.le_refl _)

/-! Structural facts about the normalizer pipeline output, assembled into
the conditional idempotence theorem for the idempotence claim. -/

theorem quoteChar_not_space (c : Nat) (hc : (! isSpaceCp c) = true) :
    (! isSpaceCp (if c = 0x22 || c = 0x27 then 0x22 else c)) = true := by
  by_cases h22 : c = 0x22
  · subst h22
    decide
  · by_cases h27 : c = 0x27
    · subst h27
      decide
    · simpa [h22, h27] using hc

theorem quoteChar_space_mask (c : Nat) :
    isSpaceCp (if c = 0x22 || c = 0x27 then 0x22 else c) = isSpaceCp c := by
  by_cases h22 : c = 0x22
  · subst h22
    decide
  · by_cases h27 : c = 0x27
    · subst h27
      decide
    · simp [h22, h27]

theorem quoteChar_dash_mask (c : Nat) :
    isDashCp (if c = 0x22 || c = 0x27 then 0x22 else c) = isDashCp c := by
  by_cases h22 : c = 0x22
  · subst h22
    decide
  · by_cases h27 : c = 0x27
    · subst h27
      decide
    · simp [h22, h27]

theorem quoteChar_ne_27 (c : Nat) :
    (if c = 0x22 || c = 0x27 then 0x22 else c) ≠ 0x27 := by
  by_cases h22 : c = 0x22
  · subst h22
    decide
  · by_cases h27 : c = 0x27
    · subst h27
      decide
    · simp [h22, h27]

theorem gdot_ne_nil (n : Nat) :
    (if 2 ≤ n then ([0x2E, 0x2E, 0x2E] : Tok) else [0x2E]) ≠ [] := by
  by_cases h2 : 2 ≤ n
  · rw [if_pos h2]
    simp
  · rw [if_neg h2]
    simp

theorem gdot_mem (n c : Nat)
    (h : c ∈ (if 2 ≤ n then ([0x2E, 0x2E, 0x2E] : Tok) else [0x2E])) :
    c = 0x2E := by
  by_cases h2 : 2 ≤ n
  · rw [if_pos h2] at h
    simpa using h
  · rw [if_neg h2] at h
    simpa using h

theorem gdot_hdAll (q : Nat → Bool) (hq : q 0x2E = true) (n : Nat) :
    hdAll q (if 2 ≤ n then ([0x2E, 0x2E, 0x2E] : Tok) else [0x2E]) = true := by
  by_cases h2 : 2 ≤ n
  · rw [if_pos h2]
    simp [hdAll, hq]
  · rw [if_neg h2]
    simp [hdAll, hq]

theorem gdot_lastAll (q : Nat → Bool) (hq : q 0x2E = true) (n : Nat) :
    lastAll q (if 2 ≤ n then ([0x2E, 0x2E, 0x2E] : Tok) else [0x2E]) = true := by
  by_cases h2 : 2 ≤ n
  · rw [if_pos h2]
    simp [lastAll, hq]
  · rw [if_neg h2]
    simp [lastAll, hq]

theorem normPipe_stripped_facts (r : Tok) :
    hdAll (fun c => ! isSpaceCp c) (pstrip (wsCollapse r)) = true ∧
    lastAll (fun c => ! isSpaceCp c) (pstrip (wsCollapse r)) = true ∧
    (∀ c ∈ pstrip (wsCollapse r), isSpaceCp c = true → c = 0x20) ∧
    noTwoAdj isSpaceCp (pstrip (wsCollapse r)) = true := by
  obtain ⟨hmem, hadj⟩ := runMap_const_out isSpaceCp 0x20 r
  exact ⟨hdAll_pstrip _, lastAll_pstrip _,
    fun c hc hsp => hmem c (mem_pstrip _ c hc) hsp,
    noTwoAdj_pstrip _ _ hadj⟩

theorem normPipe_dashed_facts (r : Tok) :
    hdAll (fun c => ! isSpaceCp c) (dashCollapse (pstrip (wsCollapse r))) = true ∧
    lastAll (fun c => ! isSpaceCp c) (dashCollapse (pstrip (wsCollapse r))) = true ∧
    (∀ c ∈ dashCollapse (pstrip (wsCollapse r)), isSpaceCp c = true → c = 0x20) ∧
    noTwoAdj isSpaceCp (dashCollapse (pstrip (wsCollapse r))) = true ∧
    (∀ c ∈ dashCollapse (pstrip (wsCollapse r)), isDashCp c = true → c = 0x2D) ∧
    noTwoAdj isDashCp (dashCollapse (pstrip (wsCollapse r))) = true := by
  obtain ⟨h1hd, h1last, h1mem, h1adj⟩ := normPipe_stripped_facts r
  obtain ⟨hdmem, hdadj⟩ := runMap_const_out isDashCp 0x2D (pstrip (wsCollapse r))
  refine ⟨?_, ?_, ?_, ?_, hdmem, hdadj⟩
  · exact hdAll_runMap isDashCp (fun _ => [0x2D]) (fun c => ! isSpaceCp c) _
      (fun n hn => ⟨by simp,
        by show hdAll (fun c => ! isSpaceCp c) [0x2D] = true; decide⟩) h1hd
  · exact lastAll_runMap isDashCp (fun _ => [0x2D]) (fun c => ! isSpaceCp c) _
      (fun n hn => ⟨by simp,
        by show lastAll (fun c => ! isSpaceCp c) [0x2D] = true; decide⟩) h1last
  · intro c hc hsp
    rcases mem_runMap isDashCp (fun _ => [0x2D]) _ c hc with ⟨hin, _⟩ | ⟨n, hgn⟩
    · exact h1mem c hin hsp
    · have hc2 : c = 0x2D := by simpa using hgn
      rw [hc2] at hsp
      exact absurd hsp (by decide)
  · exact noTwoAdj_runMap_other isDashCp (fun _ => [0x2D]) isSpaceCp _
      (fun n hn => ⟨by simp, by intro c hc; rw [show c = 0x2D by simpa using hc]; rfl⟩)
      h1adj

theorem normPipe_quoted_facts (r : Tok) :
    hdAll (fun c => ! isSpaceCp c)
      (quoteMap (dashCollapse (pstrip (wsCollapse r)))) = true ∧
    lastAll (fun c => ! isSpaceCp c)
      (quoteMap (dashCollapse (pstrip (wsCollapse r)))) = true ∧
    (∀ c ∈ quoteMap (dashCollapse (pstrip (wsCollapse r))),
      isSpaceCp c = true → c = 0x20) ∧
    noTwoAdj isSpaceCp (quoteMap (dashCollapse (pstrip (wsCollapse r)))) = true ∧
    (∀ c ∈ quoteMap (dashCollapse (pstrip (wsCollapse r))),
      isDashCp c = true → c = 0x2D) ∧
    noTwoAdj isDashCp (quoteMap (dashCollapse (pstrip (wsCollapse r)))) = true ∧
    (∀ c ∈ quoteMap (dashCollapse (pstrip (wsCollapse r))), c ≠ 0x27) := by
  obtain ⟨h2hd, h2last, h2mem, h2adj, h2dmem, h2dadj⟩ := normPipe_dashed_facts r
  refine ⟨?_, ?_, ?_, ?_, ?_, ?_, ?_⟩
  · exact hdAll_map _ _ _ quoteChar_not_space h2hd
  · exact lastAll_map _ _ _ quoteChar_not_space h2last
  · intro c hc hsp
    rcases List.mem_map.mp hc with ⟨a, ha, hfa⟩
    rw [← hfa] at hsp
    rw [quoteChar_space_mask a] at hsp
    have ha20 := h2mem a ha hsp
    rw [← hfa, ha20]
    decide
  · exact noTwoAdj_map _ _ _ quoteChar_space_mask h2adj
  · intro c hc hdash
    rcases List.mem_map.mp hc with ⟨a, ha, hfa⟩
    rw [← hfa] at hdash
    rw [quoteChar_dash_mask a] at hdash
    have ha2d := h2dmem a ha hdash
    rw [← hfa, ha2d]
    decide
  · exact noTwoAdj_map _ _ _ quoteChar_dash_mask h2dadj
  · intro c hc
    rcases List.mem_map.mp hc with ⟨a, ha, hfa⟩
    rw [← hfa]
    exact quoteChar_ne_27 a

theorem normPipe_facts (r : Tok) :
    hdAll (fun c => ! isSpaceCp c)
      (dotsCollapse (quoteMap (dashCollapse (pstrip (wsCollapse r))))) = true ∧
    lastAll (fun c => ! isSpaceCp c)
      (dotsCollapse (quoteMap (dashCollapse (pstrip (wsCollapse r))))) = true ∧
    (∀ c ∈ dotsCollapse (quoteMap (dashCollapse (pstrip (wsCollapse r)))),
      isSpaceCp c = true → c = 0x20) ∧
    noTwoAdj isSpaceCp
      (dotsCollapse (quoteMap (dashCollapse (pstrip (wsCollapse r))))) = true ∧
    (∀ c ∈ dotsCollapse (quoteMap (dashCollapse (pstrip (wsCollapse r)))),
      isDashCp c = true → c = 0x2D) ∧
    noTwoAdj isDashCp
      (dotsCollapse (quoteMap (dashCollapse (pstrip (wsCollapse r))))) = true ∧
    (∀ c ∈ dotsCollapse (quoteMap (dashCollapse (pstrip (wsCollapse r)))),
      c ≠ 0x27) ∧
    dotRuns3
      (dotsCollapse (quoteMap (dashCollapse (pstrip (wsCollapse r))))) = true := by
  obtain ⟨h3hd, h3last, h3mem, h3adj, h3dmem, h3dadj, h3no27⟩ :=
    normPipe_quoted_facts r
  refine ⟨?_, ?_, ?_, ?_, ?_, ?_, ?_, dotRuns3_dotsCollapse _⟩
  · exact hdAll_runMap isDotCp _ (fun c => ! isSpaceCp c) _
      (fun n hn => ⟨gdot_ne_nil n, gdot_hdAll _ (by decide) n⟩) h3hd
  · exact lastAll_runMap isDotCp _ (fun c => ! isSpaceCp c) _
      (fun n hn => ⟨gdot_ne_nil n, gdot_lastAll _ (by decide) n⟩) h3last
  · intro c hc hsp
    rcases mem_runMap isDotCp _ _ c hc with ⟨hin, _⟩ | ⟨n, hgn⟩
    · exact h3mem c hin hsp
    · rw [gdot_mem n c hgn] at hsp
      exact absurd hsp (by decide)
  · exact noTwoAdj_runMap_other isDotCp _ isSpaceCp _
      (fun n hn => ⟨gdot_ne_nil n,
        fun c hc => by rw [gdot_mem n c hc]; rfl⟩) h3adj
  · intro c hc hdash
    rcases mem_runMap isDotCp _ _ c hc with ⟨hin, _⟩ | ⟨n, hgn⟩
    · exact h3dmem c hin hdash
    · rw [gdot_mem n c hgn] at hdash
      exact absurd hdash (by decide)
  · exact noTwoAdj_runMap_other isDotCp _ isDashCp _
      (fun n hn => ⟨gdot_ne_nil n,
        fun c hc => by rw [gdot_mem n c hc]; rfl⟩) h3dadj
  · intro c hc
    rcases mem_runMap isDotCp _ _ c hc with ⟨hin, _⟩ | ⟨n, hgn⟩
    · exact h3no27 c hin
    · rw [gdot_mem n c hgn]
      decide

/-- C7 (counterexample): normalization is not idempotent.  On the input
`"\u0915\u093C\u093C"` (a consonant followed by two combining nuktas,
which NFKC leaves unchanged because the precomposed form U+0958 is a
composition exclusion) one replacement pass shortens the double nukta to a
single one, leaving the two-codepoint `char_mappings` key
`"\u0915\u093C"` in the output, so a second normalize shortens it again;
both source variants disagree with `normalize ∘ normalize = normalize`. -/
theorem normalize_not_idempotent :
    normalizeApp id (normalizeApp id [0x915, 0x93C, 0x93C]) ≠
      normalizeApp id [0x915, 0x93C, 0x93C] ∧
    normalizeSrc2 id (normalizeSrc2 id [0x915, 0x93C, 0x93C]) ≠
      normalizeSrc2 id [0x915, 0x93C, 0x93C] :=
  ⟨by decide, by decide⟩

/-- C7 (amended): normalization is idempotent on every input whose
normalized form is fixed by NFKC and free of `char_mappings` keys: the
strip, whitespace-collapse, dash-collapse, quote-folding and dot-collapse
steps all fix the pipeline's own output, and under the two hypotheses the
NFKC and replacement-table steps do too. -/
theorem normalize_idempotent_conditional (nfkc : Tok → Tok) (x : Tok)
    (hn : nfkc (normalizeApp nfkc x) = normalizeApp nfkc x)
    (hk : ∀ kv ∈ charMappings, isSubstrOf kv.1 (normalizeApp nfkc x) = false) :
    normalizeApp nfkc (normalizeApp nfkc x) = normalizeApp nfkc x := by
  obtain ⟨f1, f2, f3, f4, f5, f6, f7, f8⟩ :=
    normPipe_facts (replMappings (nfkc (pstrip x)))
  have g1 : hdAll (fun c => ! isSpaceCp c) (normalizeApp nfkc x) = true := f1
  have g2 : lastAll (fun c => ! isSpaceCp c) (normalizeApp nfkc x) = true := f2
  have g3 : ∀ c ∈ normalizeApp nfkc x, isSpaceCp c = true → c = 0x20 := f3
  have g4 : noTwoAdj isSpaceCp (normalizeApp nfkc x) = true := f4
  have g5 : ∀ c ∈ normalizeApp nfkc x, isDashCp c = true → c = 0x2D := f5
  have g6 : noTwoAdj isDashCp (normalizeApp nfkc x) = true := f6
  have g7 : ∀ c ∈ normalizeApp nfkc x, c ≠ 0x27 := f7
  have g8 : dotRuns3 (normalizeApp nfkc x) = true := f8
  have hqfix : ∀ c ∈ normalizeApp nfkc x,
      (if c = 0x22 || c = 0x27 then 0x22 else c) = c := by
    intro c hc
    by_cases h22 : c = 0x22
    · subst h22
      decide
    · have h27 : c ≠ 0x27 := g7 c hc
      simp [h22, h27]
  show dotsCollapse (quoteMap (dashCollapse (pstrip (wsCollapse
    (replMappings (nfkc (pstrip (normalizeApp nfkc x)))))))) =
    normalizeApp nfkc x
  rw [pstrip_fix _ g1 g2, hn, replMappings_fix _ hk,
    show wsCollapse (normalizeApp nfkc x) = normalizeApp nfkc x from
      runMap_const_fix isSpaceCp 0x20 _ g3 g4,
    pstrip_fix _ g1 g2,
    show dashCollapse (normalizeApp nfkc x) = normalizeApp nfkc x from
      runMap_const_fix isDashCp 0x2D _ g5 g6,
    show quoteMap (normalizeApp nfkc x) = normalizeApp nfkc x from
      map_fix _ _ hqfix]
  exact dotsCollapse_fix _ g8

/-- Witness for `normalize_idempotent_conditional`: on the one-letter
input `"\u0915"` the normalized form is the input itself, NFKC (taken as
the identity, which is correct on this string) fixes it and no mapping key
occurs in it, so normalizing twice equals normalizing once. -/
theorem normalize_idempotent_conditional_witness :
    normalizeApp id (normalizeApp id [0x915]) = normalizeApp id [0x915] :=
  normalize_idempotent_conditional id [0x915] rfl (by decide)

/-! Length accounting for `encode`: a successful encode of a word whose
normalized form is the word itself yields at most one id per character. -/

theorem encodeToks_length (v : Vocab) (ts : List Tok) (ids : List Nat)
    (h : encodeToks v ts = some ids) : ids.length = ts.length := by
  induction ts generalizing ids with
  | nil =>
    rw [show encodeToks v [] = some [] from rfl] at h
    cases h
    rfl
  | cons t rest ih =>
    simp only [encodeToks] at h
    split at h
    · next i0 is0 hi0 his0 =>
      cases h
      simp only [List.length_cons]
      rw [ih is0 his0]
    · cases h

theorem tokenizeCore_count (vocab : Vocab) (s : Tok) :
    (tokenizeCore vocab s).length ≤ s.length := by
  have H : ∀ (n : Nat) (s : Tok), s.length ≤ n →
      (tokenizeCore vocab s).length ≤ s.length := by
    intro n
    induction n with
    | zero =>
      intro s hn
      cases s with
      | nil => simp [tokenizeCore_nil]
      | cons a u => simp at hn
    | succ k ih =>
      intro s hn
      cases s with
      | nil => simp [tokenizeCore_nil]
      | cons c rest =>
        rw [tokenizeCore_cons]
        simp only [List.length_cons] at hn ⊢
        have h2 := stepTok_snd_length vocab c rest
        have h3 := ih (stepTok vocab c rest).2 (by omega)
        omega
  exact H s.length s (Nat.le_refl _)

theorem mem_splitWs_ne_nil (s w : Tok) (h : w ∈ splitWs s) : w ≠ [] := by
  have H : ∀ (n : Nat) (s : Tok), s.length ≤ n → w ∈ splitWs s → w ≠ [] := by
    intro n
    induction n with
    | zero =>
      intro s hn hw
      cases s with
      | nil => simp [splitWs_nil] at hw
      | cons a u => simp at hn
    | succ k ih =>
      intro s hn hw
      cases s with
      | nil => simp [splitWs_nil] at hw
      | cons c rest =>
        rw [splitWs_cons] at hw
        simp only [List.length_cons] at hn
        by_cases hp : isSpaceCp c
        · rw [if_pos hp] at hw
          exact ih rest (by omega) hw
        · rw [if_neg hp] at hw
          rcases List.mem_cons.mp hw with h1 | h1
          · rw [h1]
            simp
          · exact ih (rest.dropWhile (fun x => ! isSpaceCp x))
              (le_trans ((List.dropWhile_sublist _).length_le) (by omega)) h1
  exact H s.length s (Nat.le_refl _) h

theorem splitWs_sumLen_le (s : Tok) :
    ((splitWs s).map List.length).sum ≤ s.length := by
  have H : ∀ (n : Nat) (s : Tok), s.length ≤ n →
      ((splitWs s).map List.length).sum ≤ s.length := by
    intro n
    induction n with
    | zero =>
      intro s hn
      cases s with
      | nil => simp [splitWs_nil]
      | cons a u => simp at hn
    | succ k ih =>
      intro s hn
      cases s with
      | nil => simp [splitWs_nil]
      | cons c rest =>
        rw [splitWs_cons]
        simp only [List.length_cons] at hn
        by_cases hp : isSpaceCp c
        · rw [if_pos hp]
          refine le_trans (ih rest (by omega)) ?_
          simp
        · rw [if_neg hp]
          simp only [List.map_cons, List.sum_cons, List.length_cons]
          have hsplit := congrArg List.length
            (List.takeWhile_append_dropWhile (fun x => ! isSpaceCp x) rest)
          simp only [List.length_append] at hsplit
          have h2 := ih (rest.dropWhile (fun x => ! isSpaceCp x))
            (le_trans ((List.dropWhile_sublist _).length_le) (by omega))
          omega
  exact H s.length s (Nat.le_refl _)

theorem tokenizeWordApp_length_le (vocab : Vocab) (nfkc : Tok → Tok) (w : Tok)
    (hne : w ≠ []) (hfix : normalizeApp nfkc w = w) :
    (tokenizeWordApp vocab nfkc w).length ≤ w.length := by
  show (if vcontains vocab (normalizeApp nfkc w) then [normalizeApp nfkc w]
    else tokenizeCore vocab (normalizeApp nfkc w)).length ≤ w.length
  rw [hfix]
  by_cases hv : vcontains vocab w
  · rw [if_pos hv]
    simpa using List.length_pos.mpr hne
  · rw [if_neg hv]
    exact tokenizeCore_count vocab w

theorem encodeWordApp_length_le (v : Vocab) (nfkc : Tok → Tok) (w : Tok)
    (ids : List Nat) (hne : w ≠ []) (hfix : normalizeApp nfkc w = w)
    (h : encodeWordApp v nfkc w = some ids) : ids.length ≤ w.length := by
  unfold encodeWordApp at h
  split at h
  · next i hi =>
    cases h
    simpa using List.length_pos.mpr hne
  · rw [encodeToks_length v _ ids h]
    exact tokenizeWordApp_length_le v nfkc w hne hfix

theorem encodeWords_length_le (v : Vocab) (nfkc : Tok → Tok) (ws : List Tok)
    (ids : List Nat)
    (hws : ∀ w ∈ ws, w ≠ [] ∧ normalizeApp nfkc w = w)
    (h : encodeWords v nfkc ws = some ids) :
    ids.length ≤ (ws.map List.length).sum := by
  induction ws generalizing ids with
  | nil =>
    rw [show encodeWords v nfkc [] = some [] from rfl] at h
    cases h
    simp
  | cons w rest ih =>
    simp only [encodeWords] at h
    split at h
    · next is0 js0 his0 hjs0 =>
      cases h
      simp only [List.map_cons, List.sum_cons, List.length_append]
      have h1 := encodeWordApp_length_le v nfkc w is0
        (hws w (List.mem_cons_self w rest)).1
        (hws w (List.mem_cons_self w rest)).2 his0
      have h2 := ih js0 (fun w2 hw2 => hws w2 (List.mem_cons_of_mem w hw2)) hjs0
      omega
    · cases h

/-- C6 (counterexample): `encode` can return more ids than the input has
characters.  The one-character input `"\u0950"` (om, which NFKC fixes, so
the identity models NFKC on it) is rewritten by the `char_mappings` table
to the three characters `"\u0913\u092E\u094D"`, which segment into
three subwords and encode to three ids. -/
theorem encode_exceeds_input_length :
    encodeApp id c6State [0x950] = some [0, 0, 0] ∧
    ([0x950] : Tok).length < ([0, 0, 0] : List Nat).length :=
  ⟨by decide, by decide⟩

/-- C6 (amended): `encode` always terminates (it is a total function) and,
whenever it succeeds and every whitespace-separated piece of the
normalized text is a fixed point of normalization, returns at most one id
per character of the NORMALIZED text; the claimed bound against the raw
input fails because the replacement table can lengthen the text. -/
theorem encode_length_le_normalized (nfkc : Tok → Tok) (st : TokSt)
    (text : Tok) (ids : List Nat)
    (hfix : ∀ w ∈ splitWs (normalizeApp nfkc text), normalizeApp nfkc w = w)
    (h : encodeApp nfkc st text = some ids) :
    ids.length ≤ (normalizeApp nfkc text).length := by
  have h1 := encodeWords_length_le st.vocab nfkc
    (splitWs (normalizeApp nfkc text)) ids
    (fun w hw => ⟨mem_splitWs_ne_nil _ w hw, hfix w hw⟩) h
  exact le_trans h1 (splitWs_sumLen_le _)

/-- Witness for `encode_length_le_normalized`: on the om input the three
returned ids are within the three characters of the normalized text. -/
theorem encode_length_le_normalized_witness :
    ([0, 0, 0] : List Nat).length ≤ (normalizeApp id [0x950]).length :=
  encode_length_le_normalized id c6State [0x950] [0, 0, 0]
    (by decide) (by decide)

/-- Witness for `encode_ids_assigned`: encoding "क" in a state whose
vocabulary binds it to 1 yields `[1]`, and 1 is assigned. -/
theorem encode_ids_assigned_witness :
    ∃ t', vlookup w10State.vocab t' = some 1 :=
  encode_ids_assigned id w10State (s2t "क") [1] (by decide) 1 (by decide)

end HindiBPE
